import Mathlib

/-!
Verification of the BlankDrive vault core against its specification.

The development shallowly embeds the security-critical functions of the
repository: the PNG LSB steganography codec (`src/steganography/png-stego.ts`
and the second copy of the codec concatenated into `unnamed/part_008`), the
payload fragmenter (`unnamed/part_007`), the random/hash helpers
(`crypto/random.ts`, concatenated into `cli/commands/init.ts`), the key
derivation wrapper (`crypto/kdf.ts`) and the in-memory key manager
(`unnamed/part_011` and the key-manager section of `cli/shell.ts`).

Buffers are `List Nat` of byte values, bits are `Nat` values `0`/`1`,
hex strings are lists of nibble values (one entry per character).
External cryptographic primitives (Node `crypto` SHA-256, HKDF, the argon2
binding) are parameters of the definitions that use them: they are library
code, not part of the repository.
-/

/-- One byte expanded to its eight bits, most significant first.  Mirrors the
embedding loop `bit = (payload[byteIndex] >> bitPos) & 1` with `bitPos`
running from 7 down to 0, and `bufferToBits` of the second codec copy. -/
def bitsOfByte (b : Nat) : List Nat :=
  [b / 128 % 2, b / 64 % 2, b / 32 % 2, b / 16 % 2,
   b / 8 % 2, b / 4 % 2, b / 2 % 2, b % 2]

/-- A byte buffer expanded to its bit stream, most significant bit first. -/
def bytesToBits (bs : List Nat) : List Nat :=
  bs.flatMap bitsOfByte

/-- Reassemble one byte from up to eight bits via the accumulator
`byte = (byte << 1) | bit` used by both extractors. -/
def byteOfBits (bits : List Nat) : Nat :=
  bits.foldl (fun a b => 2 * a + b) 0

/-- Chunk a bit stream into bytes, eight bits per byte, most significant
first.  A trailing chunk of fewer than eight bits is accumulated without
padding, exactly as `bitsToBuffer` of the second codec copy does. -/
def bitsToBytes : List Nat → List Nat
  | b0 :: b1 :: b2 :: b3 :: b4 :: b5 :: b6 :: b7 :: rest =>
      byteOfBits [b0, b1, b2, b3, b4, b5, b6, b7] :: bitsToBytes rest
  | [] => []
  | l => [byteOfBits l]

theorem length_bitsOfByte (b : Nat) : (bitsOfByte b).length = 8 := rfl

theorem bitsOfByte_lt_two (b : Nat) : ∀ x ∈ bitsOfByte b, x < 2 := by
  intro x hx
  simp [bitsOfByte] at hx
  rcases hx with h | h | h | h | h | h | h | h <;> omega

theorem byteOfBits_bitsOfByte (b : Nat) (hb : b < 256) :
    byteOfBits (bitsOfByte b) = b := by
  simp [byteOfBits, bitsOfByte]
  omega

theorem bitsToBytes_eight (l rest : List Nat) (hl : l.length = 8) :
    bitsToBytes (l ++ rest) = byteOfBits l :: bitsToBytes rest := by
  match l, hl with
  | [a, b, c, d, e, f, g, h], _ => rfl

theorem bitsToBytes_bytesToBits (bs : List Nat) (h : ∀ b ∈ bs, b < 256) :
    bitsToBytes (bytesToBits bs) = bs := by
  induction bs with
  | nil => rfl
  | cons b rest ih =>
    have hb : b < 256 := h b (by simp)
    have hrest : ∀ x ∈ rest, x < 256 := fun x hx => h x (by simp [hx])
    simp only [bytesToBits, List.flatMap_cons]
    rw [bitsToBytes_eight _ _ (length_bitsOfByte b)]
    rw [byteOfBits_bitsOfByte b hb]
    simpa [bytesToBits] using congrArg (b :: ·) (ih hrest)

theorem length_bytesToBits (bs : List Nat) :
    (bytesToBits bs).length = 8 * bs.length := by
  induction bs with
  | nil => rfl
  | cons b rest ih =>
    simp [bytesToBits, List.flatMap_cons, length_bitsOfByte] at ih ⊢; omega

theorem bytesToBits_lt_two (bs : List Nat) : ∀ x ∈ bytesToBits bs, x < 2 := by
  intro x hx
  simp only [bytesToBits, List.mem_flatMap] at hx
  obtain ⟨b, _, hb⟩ := hx
  exact bitsOfByte_lt_two b x hb

theorem length_bitsToBytes (bits : List Nat) (k : Nat) (h : bits.length = 8 * k) :
    (bitsToBytes bits).length = k := by
  induction k generalizing bits with
  | zero =>
    have : bits = [] := List.eq_nil_of_length_eq_zero (by omega)
    subst this; rfl
  | succ n ih =>
    have hsplit : bits = bits.take 8 ++ bits.drop 8 := (List.take_append_drop 8 bits).symm
    rw [hsplit, bitsToBytes_eight _ _ (by rw [List.length_take]; omega)]
    simp only [List.length_cons]
    rw [ih _ (by rw [List.length_drop]; omega)]

theorem bytesToBits_append (a b : List Nat) :
    bytesToBits (a ++ b) = bytesToBits a ++ bytesToBits b := by
  simp [bytesToBits]

/-! ### Hex strings and big-endian integer fields

`Buffer.prototype.toString('hex')` renders each byte as two hex characters;
we model a hex string as the list of its nibble values.  `Buffer.from(s,
'hex')` decodes pairs of characters and silently drops an unpaired trailing
character. -/

/-- `buf.toString('hex')` — two nibbles per byte. -/
def hexEncode (bs : List Nat) : List Nat :=
  bs.flatMap fun b => [b / 16, b % 16]

/-- `Buffer.from(s, 'hex')` — pairs of nibbles back to bytes, a dangling
nibble is dropped. -/
def hexDecode : List Nat → List Nat
  | a :: b :: rest => (16 * a + b) :: hexDecode rest
  | _ => []

theorem hexDecode_hexEncode (bs : List Nat) : hexDecode (hexEncode bs) = bs := by
  induction bs with
  | nil => rfl
  | cons b rest ih =>
    have h1 : hexEncode (b :: rest) = b / 16 :: b % 16 :: hexEncode rest := by
      simp [hexEncode]
    rw [h1]
    show (16 * (b / 16) + b % 16) :: hexDecode (hexEncode rest) = b :: rest
    rw [ih]
    congr 1
    omega

theorem hexEncode_injective {a b : List Nat} (h : hexEncode a = hexEncode b) :
    a = b := by
  have := congrArg hexDecode h
  rwa [hexDecode_hexEncode, hexDecode_hexEncode] at this

theorem length_hexEncode (bs : List Nat) : (hexEncode bs).length = 2 * bs.length := by
  induction bs with
  | nil => rfl
  | cons b rest ih => simp [hexEncode, List.flatMap_cons] at ih ⊢; omega

theorem hexEncode_lt_16 (bs : List Nat) (h : ∀ b ∈ bs, b < 256) :
    ∀ x ∈ hexEncode bs, x < 16 := by
  intro x hx
  simp only [hexEncode, List.mem_flatMap] at hx
  obtain ⟨b, hb, hx⟩ := hx
  have := h b hb
  simp at hx
  rcases hx with h' | h' <;> omega

theorem hexDecode_lt_256 : ∀ l : List Nat, (∀ x ∈ l, x < 16) →
    ∀ b ∈ hexDecode l, b < 256
  | [], _, b, hb => by simp [hexDecode] at hb
  | [a], _, b, hb => by simp [hexDecode] at hb
  | a :: c :: rest, h, b, hb => by
    simp only [hexDecode, List.mem_cons] at hb
    rcases hb with hb | hb
    · have h1 := h a (by simp)
      have h2 := h c (by simp)
      omega
    · exact hexDecode_lt_256 rest (fun x hx => h x (by simp [hx])) b hb

/-- `buffer.writeUInt16BE(n)` for `n < 2^16`. -/
def u16be (n : Nat) : List Nat :=
  [n / 256 % 256, n % 256]

/-- `buffer.writeUInt32BE(n)` for `n < 2^32` (Node throws beyond that;
theorems carry the bound as a hypothesis). -/
def u32be (n : Nat) : List Nat :=
  [n / 16777216 % 256, n / 65536 % 256, n / 256 % 256, n % 256]

/-- `buffer.readUInt16BE(0)` of a 2-byte buffer. -/
def readU16 (l : List Nat) : Nat :=
  l.getD 0 0 * 256 + l.getD 1 0

/-- `buffer.readUInt32BE(0)` of a 4-byte buffer. -/
def readU32 (l : List Nat) : Nat :=
  l.getD 0 0 * 16777216 + l.getD 1 0 * 65536 + l.getD 2 0 * 256 + l.getD 3 0

theorem readU16_u16be (n : Nat) (h : n < 65536) : readU16 (u16be n) = n := by
  simp [readU16, u16be]
  omega

theorem readU32_u32be (n : Nat) (h : n < 4294967296) : readU32 (u32be n) = n := by
  simp [readU32, u32be]
  omega

theorem u32be_lt_256 (n : Nat) : ∀ b ∈ u32be n, b < 256 := by
  intro b hb
  simp [u32be] at hb
  rcases hb with h | h | h | h <;> omega

theorem u16be_lt_256 (n : Nat) : ∀ b ∈ u16be n, b < 256 := by
  intro b hb
  simp [u16be] at hb
  rcases hb with h | h <;> omega

/-! ### PNG steganography codec (`src/steganography/png-stego.ts`)

A PNG is its width, height and RGBA pixel buffer (`4 * width * height`
bytes, row-major).  `png.data[(width * y + x) * 4 + c]` is channel `c` of
pixel `(x, y)`; the codec touches only channels 0..2 (R, G, B).  The SHA-256
primitive is a parameter `sha : List Nat → List Nat` (it lives in Node
`crypto`, outside the repository). -/

/-- `MAGIC_BYTES = "SLSH"`. -/
def MAGIC_BYTES : List Nat := [0x53, 0x4C, 0x53, 0x48]

/-- `HEADER_SIZE = 16`: magic(4) + length(4) + checksum(8). -/
def HEADER_SIZE : Nat := 16

/-- `calculateChecksum(data)`: first 8 bytes of `sha256(data)` rendered as a
16-character hex string (`crypto/random.ts`). -/
def calculateChecksum (sha : List Nat → List Nat) (data : List Nat) : List Nat :=
  hexEncode ((sha data).take 8)

/-- `verifyChecksum(data, checksum)`: recompute and compare. -/
def verifyChecksum (sha : List Nat → List Nat) (data : List Nat)
    (checksum : List Nat) : Bool :=
  calculateChecksum sha data = checksum

/-- `calculateCapacity(width, height)`: `floor(w*h*3 / 8) - HEADER_SIZE`.
The result is an integer and can be negative for tiny images. -/
def calculateCapacity (width height : Nat) : Int :=
  (((width * height * 3) / 8 : Nat) : Int) - HEADER_SIZE

/-- `createHeader(dataLength, checksum)`: magic ‖ uint32be length ‖ the
8 checksum bytes decoded from the hex string. -/
def createHeader (dataLength : Nat) (checksum : List Nat) : List Nat :=
  MAGIC_BYTES ++ u32be dataLength ++ hexDecode checksum

/-- `parseHeader(header)`: `none` unless the first four bytes are the magic;
otherwise the payload length and the checksum re-encoded as hex.  Both codec
copies contain this identical function. -/
def parseHeader (header : List Nat) : Option (Nat × List Nat) :=
  if header.take 4 = MAGIC_BYTES then
    some (readU32 ((header.drop 4).take 4), hexEncode ((header.drop 8).take 8))
  else
    none

/-- The LSB stream of an image: for channel slot `k` (row-major pixel
`k / 3`, channel `k % 3`) the least significant bit of that channel byte.
Both extractors walk exactly this sequence. -/
def lsbChannelStream (width height : Nat) (pixels : List Nat) : List Nat :=
  (List.range (width * height * 3)).map fun k =>
    pixels.getD (4 * (k / 3) + k % 3) 0 % 2

/-- The pixel buffer after the embedding loop of `embedInPNG`: channel slot
`k = 3 * p + c` (pixel `p`, channel `c < 3`) has its LSB overwritten with
payload bit `k` while bits remain (`byte & 0xFE | bit`); every other byte —
alpha channels and everything after the payload — is untouched.  The loop
consumes bits sequentially over pixels in row-major order, so channel slot
`k` receives exactly bit `k`; `embedInPNG` only calls this with
`bits.length ≤ 3 * width * height`, which makes the early `break` and this
index formula coincide. -/
def embedBits (bits : List Nat) (pixels : List Nat) : List Nat :=
  (List.range pixels.length).map fun i =>
    let v := pixels.getD i 0
    if i % 4 < 3 ∧ 3 * (i / 4) + i % 4 < bits.length then
      2 * (v / 2) + bits.getD (3 * (i / 4) + i % 4) 0
    else
      v

/-- Stego error kinds, one per throw site of the codec.
`dataTooLarge` — "Data too large for carrier" (the spec calls it
`CarrierTooSmall`); `invalidHeader` — "No hidden data found in image
(Invalid header)" (spec `NoPayload`); `incompleteData` — "No hidden data
found in image (Incomplete data)", thrown when the image is exhausted (spec
`Truncated`); `checksumMismatch` — "Data integrity check failed: checksum
mismatch" (spec `Corrupt`); `noPayload2` — the second copy's plain "No
hidden data found in image"; `boundsRead` — a `readUInt32BE` past the end of
a short buffer, which Node rejects. -/
inductive StegoError where
  | dataTooLarge
  | invalidHeader
  | incompleteData
  | checksumMismatch
  | noPayload2
  | boundsRead
  deriving DecidableEq

/-- `EmbedResult` without the output path (pure I/O). -/
structure EmbedResult where
  bytesEmbedded : Nat
  capacity : Int
  checksum : List Nat
  deriving DecidableEq

/-- `ExtractResult`. -/
structure ExtractResult where
  data : List Nat
  checksum : List Nat
  deriving DecidableEq

/-- `embedInPNG` of `src/steganography/png-stego.ts`: capacity check, then
header construction and the LSB embedding loop.  Returns the new pixel
buffer together with the `EmbedResult`. -/
def embedInPNG (sha : List Nat → List Nat) (width height : Nat)
    (pixels : List Nat) (data : List Nat) :
    Except StegoError (List Nat × EmbedResult) :=
  let capacity := calculateCapacity width height
  if (data.length : Int) > capacity then
    .error .dataTooLarge
  else
    let checksum := calculateChecksum sha data
    let header := createHeader data.length checksum
    let payload := header ++ data
    .ok (embedBits (bytesToBits payload) pixels,
         ⟨data.length, capacity, checksum⟩)

/-- `extractFromPNG` of `src/steganography/png-stego.ts`.  The streaming
loop accumulates header bits first; the header never completes when the
image holds fewer than 128 channel bits ("Incomplete data").  Once 16 bytes
are read the header is parsed ("Invalid header" when the magic is absent), a
buffer of the announced length is allocated, and the remaining channel bits
fill it; exhausting the image first is again "Incomplete data".  Finally the
checksum is verified. -/
def extractFromPNG (sha : List Nat → List Nat) (width height : Nat)
    (pixels : List Nat) : Except StegoError ExtractResult :=
  let stream := lsbChannelStream width height pixels
  if stream.length < 8 * HEADER_SIZE then
    .error .incompleteData
  else
    match parseHeader (bitsToBytes (stream.take (8 * HEADER_SIZE))) with
    | none => .error .invalidHeader
    | some (len, checksum) =>
      if stream.length < 8 * HEADER_SIZE + 8 * len then
        .error .incompleteData
      else
        let data := bitsToBytes ((stream.drop (8 * HEADER_SIZE)).take (8 * len))
        if verifyChecksum sha data checksum then
          .ok ⟨data, checksum⟩
        else
          .error .checksumMismatch

/-! ### Second codec copy (concatenated into `unnamed/part_008`)

The file carries its own `calculateCapacity`, `bufferToBits`,
`bitsToBuffer`, `createHeader`, `parseHeader`, `embedInPNG` and
`extractFromPNG`.  Capacity, header handling and the embed loop are
byte-for-byte the same as the streaming copy; the extractor instead collects
every LSB into an array, attempts an early return once enough bits for
header plus announced payload are present, and otherwise falls back to
decoding the whole bit array. -/

/-- `bufferToBits` of `unnamed/part_008`: for each byte push bits 7..0. -/
def bufferToBits (bs : List Nat) : List Nat :=
  bs.flatMap bitsOfByte

/-- `embedInPNG` of `unnamed/part_008`: identical capacity check and header;
the loop writes `bits[bitIndex++]` into the LSB of R, G, B of each pixel in
row-major order while bits remain, i.e. channel slot `k` gets bit `k`. -/
def embedInPNG2 (sha : List Nat → List Nat) (width height : Nat)
    (pixels : List Nat) (data : List Nat) :
    Except StegoError (List Nat × EmbedResult) :=
  let capacity := calculateCapacity width height
  if (data.length : Int) > capacity then
    .error .dataTooLarge
  else
    let checksum := calculateChecksum sha data
    let header := createHeader data.length checksum
    let payload := header ++ data
    let bits := bufferToBits payload
    .ok (embedBits bits pixels, ⟨data.length, capacity, checksum⟩)

/-- `extractFromPNG` of `unnamed/part_008`.  The loop pushes the three
channel LSBs of each pixel, and after each pixel, once at least 128 bits are
collected, parses the first 16 bytes; when the magic matches and the
collected bits already cover header plus announced payload it returns the
decoded slice (after checksum verification).  The early parse therefore
fires exactly when the full stream holds `128 + 8 * length` bits (the
stream length is a multiple of 3, so at least 129 bits are present whenever
128 are).  If the loop finishes without returning, the whole bit array is
decoded: a missing magic throws the plain "No hidden data found in image",
a `readUInt32BE` beyond a sub-16-byte buffer is a Node bounds error, and
otherwise the (possibly truncated) slice `allData[16 .. 16+length]` is
checksum-verified. -/
def extractFromPNG2 (sha : List Nat → List Nat) (width height : Nat)
    (pixels : List Nat) : Except StegoError ExtractResult :=
  let stream := lsbChannelStream width height pixels
  let headerNow := bitsToBytes (stream.take (8 * HEADER_SIZE))
  match if 8 * HEADER_SIZE ≤ stream.length then parseHeader headerNow else none with
  | some (len, checksum) =>
    if 8 * HEADER_SIZE + 8 * len ≤ stream.length then
      let data := bitsToBytes ((stream.drop (8 * HEADER_SIZE)).take (8 * len))
      if verifyChecksum sha data checksum then
        .ok ⟨data, checksum⟩
      else
        .error .checksumMismatch
    else
      -- fall through to the whole-array decode
      let allData := bitsToBytes stream
      if allData.take 4 ≠ MAGIC_BYTES then .error .noPayload2
      else if allData.length < 8 then .error .boundsRead
      else
        let len2 := readU32 ((allData.drop 4).take 4)
        let checksum2 := hexEncode ((allData.drop 8).take 8)
        let data := (allData.drop HEADER_SIZE).take len2
        if verifyChecksum sha data checksum2 then
          .ok ⟨data, checksum2⟩
        else
          .error .checksumMismatch
  | none =>
    let allData := bitsToBytes stream
    if allData.take 4 ≠ MAGIC_BYTES then .error .noPayload2
    else if allData.length < 8 then .error .boundsRead
    else
      let len2 := readU32 ((allData.drop 4).take 4)
      let checksum2 := hexEncode ((allData.drop 8).take 8)
      let data := (allData.drop HEADER_SIZE).take len2
      if verifyChecksum sha data checksum2 then
        .ok ⟨data, checksum2⟩
      else
        .error .checksumMismatch

/-! ### The embedding/extraction correspondence -/

theorem length_lsbChannelStream (w h : Nat) (pixels : List Nat) :
    (lsbChannelStream w h pixels).length = w * h * 3 := by
  simp [lsbChannelStream]

/-- After the embedding loop, the channel LSB stream starts with exactly the
embedded bits; the remaining channel slots keep their original LSBs. -/
theorem lsbChannelStream_embedBits (w h : Nat) (bits pixels : List Nat)
    (hpix : pixels.length = 4 * (w * h))
    (hble : bits.length ≤ w * h * 3)
    (hbits : ∀ x ∈ bits, x < 2) :
    lsbChannelStream w h (embedBits bits pixels) =
      bits ++ (lsbChannelStream w h pixels).drop bits.length := by
  apply List.ext_getElem
  · simp [length_lsbChannelStream]
    omega
  · intro i h1 h2
    have hi : i < w * h * 3 := by
      simpa [length_lsbChannelStream] using h1
    have hj : 4 * (i / 3) + i % 3 < pixels.length := by
      rw [hpix]; omega
    have hj2 : 4 * (i / 3) + i % 3 < (List.range pixels.length).length := by
      simpa using hj
    have hstream : ∀ q : List Nat, i < (lsbChannelStream w h q).length := by
      intro q; simpa [length_lsbChannelStream] using hi
    have hL : (lsbChannelStream w h (embedBits bits pixels))[i] =
        (embedBits bits pixels).getD (4 * (i / 3) + i % 3) 0 % 2 := by
      simp [lsbChannelStream]
    have hElen : (embedBits bits pixels).length = pixels.length := by
      simp [embedBits]
    have hE : (embedBits bits pixels).getD (4 * (i / 3) + i % 3) 0 =
        (if (4 * (i / 3) + i % 3) % 4 < 3 ∧
            3 * ((4 * (i / 3) + i % 3) / 4) + (4 * (i / 3) + i % 3) % 4 < bits.length then
          2 * (pixels.getD (4 * (i / 3) + i % 3) 0 / 2) +
            bits.getD (3 * ((4 * (i / 3) + i % 3) / 4) + (4 * (i / 3) + i % 3) % 4) 0
        else pixels.getD (4 * (i / 3) + i % 3) 0) := by
      rw [List.getD_eq_getElem _ _ (by omega : 4 * (i / 3) + i % 3 < (embedBits bits pixels).length)]
      simp only [embedBits, List.getElem_map, List.getElem_range]
    have hmod : (4 * (i / 3) + i % 3) % 4 = i % 3 := by omega
    have hdiv : (4 * (i / 3) + i % 3) / 4 = i / 3 := by omega
    have hback : 3 * (i / 3) + i % 3 = i := by omega
    rw [hL, hE, hmod, hdiv, hback]
    by_cases hcase : i < bits.length
    · have hc : i % 3 < 3 ∧ i < bits.length := ⟨by omega, hcase⟩
      rw [if_pos hc]
      rw [List.getElem_append_left (by omega)]
      have hbit : bits.getD i 0 = bits[i] := List.getD_eq_getElem _ _ (by omega)
      have hbitlt : bits[i] < 2 := hbits _ (List.getElem_mem _)
      rw [hbit]
      omega
    · have hc : ¬ (i % 3 < 3 ∧ i < bits.length) := by omega
      rw [if_neg hc]
      rw [List.getElem_append_right (by omega)]
      rw [List.getElem_drop]
      simp only [lsbChannelStream, List.getElem_map, List.getElem_range]
      have e : bits.length + (i - bits.length) = i := by omega
      rw [e]

/-! ### Round-trip facts for the streaming codec -/

theorem MAGIC_lt_256 : ∀ b ∈ MAGIC_BYTES, b < 256 := by decide

theorem createHeader_checksum (sha : List Nat → List Nat) (d : List Nat)
    (hsha32 : (sha d).length = 32) :
    createHeader d.length (calculateChecksum sha d) =
      MAGIC_BYTES ++ u32be d.length ++ (sha d).take 8 ∧
    (MAGIC_BYTES ++ u32be d.length ++ (sha d).take 8).length = 16 := by
  constructor
  · rw [createHeader, calculateChecksum, hexDecode_hexEncode]
  · simp [MAGIC_BYTES, u32be]
    omega

theorem header_bytes_lt_256 (sha : List Nat → List Nat) (d : List Nat)
    (hshaB : ∀ b ∈ sha d, b < 256) :
    ∀ b ∈ MAGIC_BYTES ++ u32be d.length ++ (sha d).take 8, b < 256 := by
  intro b hb
  simp only [List.mem_append] at hb
  rcases hb with (hb | hb) | hb
  · exact MAGIC_lt_256 b hb
  · exact u32be_lt_256 _ b hb
  · exact hshaB b (List.take_subset _ _ hb)

theorem capacity_bits_fit (w h : Nat) (n : Nat)
    (hcap : (n : Int) ≤ calculateCapacity w h) :
    8 * (16 + n) ≤ w * h * 3 := by
  unfold calculateCapacity HEADER_SIZE at hcap
  have h1 : n + 16 ≤ w * h * 3 / 8 := by omega
  have h2 : w * h * 3 / 8 * 8 ≤ w * h * 3 := Nat.div_mul_le_self _ _
  omega

/-- On an in-capacity payload `embedInPNG` succeeds with the literal header,
payload and result of the source. -/
theorem embedInPNG_ok (sha : List Nat → List Nat) (w h : Nat)
    (pixels d : List Nat)
    (hcap : (d.length : Int) ≤ calculateCapacity w h) :
    embedInPNG sha w h pixels d =
      .ok (embedBits (bytesToBits (createHeader d.length (calculateChecksum sha d) ++ d)) pixels,
           ⟨d.length, calculateCapacity w h, calculateChecksum sha d⟩) := by
  simp only [embedInPNG]
  rw [if_neg (not_lt.mpr hcap)]

/-- The LSB stream of an embedded image decomposes into header bits, data
bits and the untouched tail. -/
theorem stream_of_embed (sha : List Nat → List Nat) (w h : Nat)
    (pixels d : List Nat)
    (hpix : pixels.length = 4 * (w * h))
    (hsha32 : (sha d).length = 32)
    (hcap : (d.length : Int) ≤ calculateCapacity w h) :
    lsbChannelStream w h
        (embedBits (bytesToBits (createHeader d.length (calculateChecksum sha d) ++ d)) pixels) =
      bytesToBits (MAGIC_BYTES ++ u32be d.length ++ (sha d).take 8) ++
        (bytesToBits d ++
          (lsbChannelStream w h pixels).drop (8 * (16 + d.length))) := by
  obtain ⟨hhd, hhlen⟩ := createHeader_checksum sha d hsha32
  rw [hhd]
  have hlenbits : (bytesToBits ((MAGIC_BYTES ++ u32be d.length ++ (sha d).take 8) ++ d)).length
      = 8 * (16 + d.length) := by
    rw [length_bytesToBits, List.length_append, hhlen]
  rw [lsbChannelStream_embedBits w h _ pixels hpix
      (by rw [hlenbits]; exact capacity_bits_fit w h d.length hcap)
      (bytesToBits_lt_two _)]
  rw [hlenbits, bytesToBits_append, List.append_assoc]

/-- Extraction from any image whose LSB stream starts with a well-formed
header: the announced length is read back and the tail decoded. -/
theorem extract_decomp (sha : List Nat → List Nat) (w h : Nat)
    (pixels : List Nat) (n : Nat) (c8 T : List Nat)
    (hstream : lsbChannelStream w h pixels =
      bytesToBits (MAGIC_BYTES ++ u32be n ++ c8) ++ T)
    (hc8len : c8.length = 8)
    (hc8B : ∀ b ∈ c8, b < 256)
    (hn : n < 4294967296) :
    extractFromPNG sha w h pixels =
      if T.length < 8 * n then .error .incompleteData
      else if calculateChecksum sha (bitsToBytes (T.take (8 * n))) = hexEncode c8
        then .ok ⟨bitsToBytes (T.take (8 * n)), hexEncode c8⟩
        else .error .checksumMismatch := by
  have hH16 : (MAGIC_BYTES ++ u32be n ++ c8).length = 16 := by
    simp [MAGIC_BYTES, u32be, hc8len]
  have hHbits : (bytesToBits (MAGIC_BYTES ++ u32be n ++ c8)).length = 128 := by
    rw [length_bytesToBits, hH16]
  have hHB : ∀ b ∈ MAGIC_BYTES ++ u32be n ++ c8, b < 256 := by
    intro b hb
    simp only [List.mem_append] at hb
    rcases hb with (hb | hb) | hb
    · exact MAGIC_lt_256 b hb
    · exact u32be_lt_256 _ b hb
    · exact hc8B b hb
  have htake : (bytesToBits (MAGIC_BYTES ++ u32be n ++ c8) ++ T).take 128 =
      bytesToBits (MAGIC_BYTES ++ u32be n ++ c8) :=
    List.take_left' hHbits
  have hdrop : (bytesToBits (MAGIC_BYTES ++ u32be n ++ c8) ++ T).drop 128 = T :=
    List.drop_left' hHbits
  have hparse : parseHeader (MAGIC_BYTES ++ u32be n ++ c8) = some (n, hexEncode c8) := by
    have ha : MAGIC_BYTES ++ u32be n ++ c8 = MAGIC_BYTES ++ (u32be n ++ c8) :=
      List.append_assoc _ _ _
    rw [parseHeader, ha]
    rw [List.take_left' (show MAGIC_BYTES.length = 4 from rfl)]
    rw [if_pos rfl]
    rw [List.drop_left' (show MAGIC_BYTES.length = 4 from rfl)]
    rw [List.take_left' (show (u32be n).length = 4 from rfl)]
    rw [readU32_u32be n hn]
    rw [← ha]
    rw [List.drop_left' (show (MAGIC_BYTES ++ u32be n).length = 8 from by
      simp [MAGIC_BYTES, u32be])]
    rw [show c8.take 8 = c8 from by rw [← hc8len]; exact List.take_length c8]
  have hslen : (bytesToBits (MAGIC_BYTES ++ u32be n ++ c8) ++ T).length = 128 + T.length := by
    rw [List.length_append, hHbits]
  rw [extractFromPNG]
  simp only [hstream, htake, hdrop, hslen, bitsToBytes_bytesToBits _ hHB, hparse,
    show (8 : Nat) * HEADER_SIZE = 128 from rfl]
  rw [if_neg (by omega)]
  by_cases hT : T.length < 8 * n
  · rw [if_pos (by omega), if_pos hT]
  · rw [if_neg (by omega), if_neg hT]
    simp [verifyChecksum]

/-- Extraction undoes embedding. -/
theorem extractFromPNG_embedBits (sha : List Nat → List Nat) (w h : Nat)
    (pixels d : List Nat)
    (hpix : pixels.length = 4 * (w * h))
    (hd : ∀ b ∈ d, b < 256)
    (hsha32 : (sha d).length = 32)
    (hshaB : ∀ b ∈ sha d, b < 256)
    (hcap : (d.length : Int) ≤ calculateCapacity w h)
    (h32 : d.length < 4294967296) :
    extractFromPNG sha w h
        (embedBits (bytesToBits (createHeader d.length (calculateChecksum sha d) ++ d)) pixels) =
      .ok ⟨d, calculateChecksum sha d⟩ := by
  have hc8len : ((sha d).take 8).length = 8 := by
    rw [List.length_take, hsha32]; omega
  have hc8B : ∀ b ∈ (sha d).take 8, b < 256 :=
    fun b hb => hshaB b (List.take_subset _ _ hb)
  rw [extract_decomp sha w h _ d.length ((sha d).take 8)
      (bytesToBits d ++ (lsbChannelStream w h pixels).drop (8 * (16 + d.length)))
      (stream_of_embed sha w h pixels d hpix hsha32 hcap) hc8len hc8B h32]
  have hdb : (bytesToBits d).length = 8 * d.length := length_bytesToBits d
  rw [if_neg (by rw [List.length_append, hdb]; omega)]
  rw [List.take_left' hdb]
  rw [bitsToBytes_bytesToBits d hd]
  have hcs : calculateChecksum sha d = hexEncode ((sha d).take 8) := rfl
  rw [if_pos hcs, hcs]

/-- C1.  Stego round-trip: for every RGBA carrier and every payload within
capacity, `embedInPNG` succeeds, reports `checksum8(d)` — the first 8 bytes
of SHA-256 as 16 hex characters — and `extractFromPNG` of the produced
image returns exactly the payload with that checksum.  SHA-256 itself is
Node library code, abstracted as any function returning 32 bytes; the
payload length bound mirrors the `uint32` header field. -/
theorem C1_stego_roundtrip (sha : List Nat → List Nat) (w h : Nat)
    (pixels d : List Nat)
    (hpix : pixels.length = 4 * (w * h))
    (hd : ∀ b ∈ d, b < 256)
    (hsha32 : ∀ x, (sha x).length = 32)
    (hshaB : ∀ x, ∀ b ∈ sha x, b < 256)
    (hcap : (d.length : Int) ≤ calculateCapacity w h)
    (h32 : d.length < 4294967296) :
    ∃ pixels2 res,
      embedInPNG sha w h pixels d = .ok (pixels2, res) ∧
      res.checksum = hexEncode ((sha d).take 8) ∧
      extractFromPNG sha w h pixels2 = .ok ⟨d, hexEncode ((sha d).take 8)⟩ := by
  refine ⟨_, _, embedInPNG_ok sha w h pixels d hcap, rfl, ?_⟩
  have := extractFromPNG_embedBits sha w h pixels d hpix hd (hsha32 d) (hshaB d) hcap h32
  rw [this]
  rfl

/-- A concrete stand-in for the abstract SHA-256 parameter: 32 zero bytes.
Witnesses only need the arity contract of the hash. -/
def shaZ : List Nat → List Nat := fun _ => List.replicate 32 0

theorem shaZ_len : ∀ x, (shaZ x).length = 32 := fun _ => rfl

theorem shaZ_bytes : ∀ x, ∀ b ∈ shaZ x, b < 256 := by
  intro x b hb
  simp [shaZ] at hb
  omega

/-- Witness for C1: an 8×8 all-zero carrier and the one-byte payload `0xAB`
rounds trip. -/
theorem C1_stego_roundtrip_witness :
    ∃ pixels2 res,
      embedInPNG shaZ 8 8 (List.replicate 256 0) [171] = .ok (pixels2, res) ∧
      res.checksum = hexEncode ((shaZ [171]).take 8) ∧
      extractFromPNG shaZ 8 8 pixels2 = .ok ⟨[171], hexEncode ((shaZ [171]).take 8)⟩ :=
  C1_stego_roundtrip shaZ 8 8 (List.replicate 256 0) [171]
    (by rw [List.length_replicate]) (by decide) shaZ_len shaZ_bytes (by decide) (by decide)

/-- C2.  Capacity: `calculateCapacity w h = floor(w*h*3/8) - 16` for every
width and height; a 100×100 PNG has capacity 3734; embedding exactly 3734
bytes into a 100×100 carrier succeeds; and any payload longer than the
capacity is rejected with the carrier-too-small error ("Data too large for
carrier"). -/
theorem C2_capacity :
    (∀ w h : Nat, calculateCapacity w h = ((w * h * 3 / 8 : Nat) : Int) - 16) ∧
    calculateCapacity 100 100 = 3734 ∧
    (∀ sha (pixels d : List Nat), d.length = 3734 →
      (embedInPNG sha 100 100 pixels d).isOk = true) ∧
    (∀ sha (w h : Nat) (pixels d : List Nat),
      (d.length : Int) > calculateCapacity w h →
      embedInPNG sha w h pixels d = .error .dataTooLarge) := by
  refine ⟨fun w h => rfl, by decide, ?_, ?_⟩
  · intro sha pixels d hlen
    rw [embedInPNG_ok sha 100 100 pixels d (by rw [hlen]; decide)]
    rfl
  · intro sha w h pixels d hbig
    simp only [embedInPNG]
    rw [if_pos hbig]

/-- Witness for C2: embedding 3734 zero bytes into a 100×100 zero carrier
succeeds and 3735 bytes are rejected. -/
theorem C2_capacity_witness :
    (embedInPNG shaZ 100 100 (List.replicate 40000 0) (List.replicate 3734 0)).isOk = true ∧
    embedInPNG shaZ 100 100 (List.replicate 40000 0) (List.replicate 3735 0) =
      .error .dataTooLarge :=
  ⟨C2_capacity.2.2.1 shaZ (List.replicate 40000 0) (List.replicate 3734 0)
      (by rw [List.length_replicate]),
   C2_capacity.2.2.2 shaZ 100 100 (List.replicate 40000 0) (List.replicate 3735 0)
      (by rw [List.length_replicate]; decide)⟩

/-- C10.  For any carrier of at most 42 pixels the computed capacity is
negative, and `embedInPNG` then rejects every payload — including the empty
one — with the data-too-large error, because `data.length > capacity` holds
for any non-negative length. -/
theorem C10_tiny_carrier (w h : Nat) (hwh : w * h ≤ 42) :
    calculateCapacity w h < 0 ∧
    ∀ sha (pixels d : List Nat),
      embedInPNG sha w h pixels d = .error .dataTooLarge := by
  have hneg : calculateCapacity w h < 0 := by
    unfold calculateCapacity HEADER_SIZE
    have h3 : w * h * 3 ≤ 126 := by omega
    have : w * h * 3 / 8 ≤ 15 := by omega
    omega
  refine ⟨hneg, fun sha pixels d => ?_⟩
  simp only [embedInPNG]
  rw [if_pos (by omega : (d.length : Int) > calculateCapacity w h)]

/-- Witness for C10: a 4×4 carrier has negative capacity and rejects even
the empty payload. -/
theorem C10_tiny_carrier_witness :
    calculateCapacity 4 4 < 0 ∧
    embedInPNG shaZ 4 4 (List.replicate 64 0) [] = .error .dataTooLarge :=
  ⟨(C10_tiny_carrier 4 4 (by decide)).1,
   (C10_tiny_carrier 4 4 (by decide)).2 shaZ (List.replicate 64 0) []⟩

/-- C8.  The two coexisting codec copies agree: `embedInPNG` of
`unnamed/part_008` computes exactly the same result (pixels and report) as
the streaming `embedInPNG` on every input, and on any image from which the
streaming extractor recovers a valid payload, the bit-array extractor of
`unnamed/part_008` returns the same data and checksum (its early-return
path fires precisely under the streaming success conditions). -/
theorem C8_codec_equivalence :
    (∀ sha (w h : Nat) (pixels d : List Nat),
        embedInPNG2 sha w h pixels d = embedInPNG sha w h pixels d) ∧
    (∀ sha (w h : Nat) (pixels : List Nat) (r : ExtractResult),
        extractFromPNG sha w h pixels = .ok r →
        extractFromPNG2 sha w h pixels = .ok r) := by
  constructor
  · intro sha w h pixels d
    rfl
  · intro sha w h pixels r hok
    rw [extractFromPNG] at hok
    split at hok
    · exact absurd hok (by simp)
    · next hlt =>
      split at hok
      · exact absurd hok (by simp)
      · next len cs heq =>
        split at hok
        · exact absurd hok (by simp)
        · next hlt2 =>
          simp only [] at hok
          split at hok
          · next hver =>
            have hc : 8 * HEADER_SIZE ≤ (lsbChannelStream w h pixels).length := by omega
            have hc2 : 8 * HEADER_SIZE + 8 * len ≤ (lsbChannelStream w h pixels).length := by
              omega
            simp only [extractFromPNG2, if_pos hc, heq, if_pos hc2, if_pos hver]
            exact hok
          · exact absurd hok (by simp)

/-- Witness for C8: the bit-array extractor recovers the payload `0xAB` from
the image the streaming embedder produced. -/
theorem C8_codec_equivalence_witness :
    extractFromPNG2 shaZ 8 8
        (embedBits (bytesToBits (createHeader 1 (calculateChecksum shaZ [171]) ++ [171]))
          (List.replicate 256 0)) =
      .ok ⟨[171], calculateChecksum shaZ [171]⟩ :=
  C8_codec_equivalence.2 shaZ 8 8 _ _
    (extractFromPNG_embedBits shaZ 8 8 (List.replicate 256 0) [171]
      (by rw [List.length_replicate]) (by decide) rfl (shaZ_bytes _) (by decide) (by decide))

/-! ### Fragmenter (`unnamed/part_007`)

`fragmentData` draws chunk sizes with `randomInt(-variance, variance)` where
`variance = Math.min(avgRemaining * 0.3, maxChunkSize - minChunkSize)`.
`randomInt(min, max)` (`crypto/random.ts`) is `crypto.randomInt(min, max+1)`,
and Node validates both bounds with `Number.isSafeInteger`, throwing
`ERR_OUT_O`-style range errors for non-integer bounds.  The model computes
the arithmetic in `ℚ` (JS doubles are exact for the integer-valued divisions
and products appearing in every concrete input used below, and a
non-integer `ℚ` variance here is bounded away from the nearest integer by
at least `1/1000`, far beyond double rounding error, so the integrality
verdicts of `ℚ` and IEEE 754 agree on them) and models that validation as
the `nonIntegerRandomBound` error.  The random draw itself is an oracle
`rand : ℕ → ℤ` giving the value returned for loop iteration `i`; the real
generator returns integers in `[-variance, variance]`, and every concrete
oracle used below stays in that range. -/

structure Fragment where
  index : Nat
  total : Nat
  data : List Nat
  checksum : List Nat
  deriving DecidableEq

/-- Fragment error kinds, one per throw site of `unnamed/part_007`, plus the
Node `crypto.randomInt` bound validation failure.  `tooShort` is "Invalid
fragment: too short" and `truncated` "Invalid fragment: data truncated"
(the spec calls both `Truncated`); `corrupt` is the checksum failure;
`noFragments`, `missingCount` and `missingIndex` are the reassembly
errors. -/
inductive FragmentError where
  | tooShort
  | truncated
  | corrupt
  | noFragments
  | missingCount
  | missingIndex (i : Nat)
  | nonIntegerRandomBound
  deriving DecidableEq

/-- The chunk-size loop of `fragmentData`, counted by the number of
remaining iterations: with `k + 1` iterations left the loop variable is
`i = actual - (k + 2)` and `remainingFragments = actual - i = k + 2`.
After the last iteration the remaining byte count is pushed as the final
chunk. -/
def chunkSizes (rand : Nat → Int) (minC maxC actual : Nat) :
    Nat → Int → Except FragmentError (List Int)
  | 0, remaining => .ok [remaining]
  | k + 1, remaining =>
    let avgRem : ℚ := (remaining : ℚ) / ((k : ℚ) + 2)
    let variance : ℚ := min (avgRem * (3 / 10)) ((maxC : ℚ) - (minC : ℚ))
    if variance ≠ ((⌊variance⌋ : Int) : ℚ) then .error .nonIntegerRandomBound
    else
      let c1 : Int := ⌊avgRem + ((rand (actual - k - 2) : Int) : ℚ)⌋
      let c2 : Int := max (minC : Int) (min (maxC : Int) c1)
      let c3 : Int := min c2 (remaining - ((k : Int) + 1) * (minC : Int))
      match chunkSizes rand minC maxC actual k (remaining - c3) with
      | .error e => .error e
      | .ok rest => .ok (c3 :: rest)

/-- `data.subarray(offset, offset + size)` for each size in turn. -/
def sliceChunks (data : List Nat) : List Nat → List (List Nat)
  | [] => []
  | s :: rest => data.take s :: sliceChunks (data.drop s) rest

/-- `fragmentData(data, maxChunkSize, minChunkSize)` of `unnamed/part_007`. -/
def fragmentData (sha : List Nat → List Nat) (rand : Nat → Int)
    (data : List Nat) (maxChunkSize : Nat := 524288) (minChunkSize : Nat := 65536) :
    Except FragmentError (List Fragment) :=
  if data.length ≤ minChunkSize then
    .ok [⟨0, 1, data, calculateChecksum sha data⟩]
  else
    let avgChunkSize : ℚ := ((minChunkSize : ℚ) + (maxChunkSize : ℚ)) / 2
    let estimated : Int := ⌈(data.length : ℚ) / avgChunkSize⌉
    let actual : Int := max 2 (min estimated 100)
    match chunkSizes rand minChunkSize maxChunkSize actual.toNat
        (actual.toNat - 1) (data.length : Int) with
    | .error e => .error e
    | .ok sizes =>
      let chunks := sliceChunks data (sizes.map Int.toNat)
      .ok (chunks.enum.map fun ic => ⟨ic.1, chunks.length, ic.2, calculateChecksum sha ic.2⟩)

/-- `serializeFragment`: 16-byte header `uint16be index ‖ uint16be total ‖
8 checksum bytes ‖ uint32be dataLength` followed by the data.  (The source
allocates 16 bytes and copies the hex-decoded checksum at offset 4; for the
16-hex-character checksums the code produces, that is exactly 8 bytes.) -/
def serializeFragment (f : Fragment) : List Nat :=
  u16be f.index ++ u16be f.total ++ hexDecode f.checksum ++ u32be f.data.length ++ f.data

/-- `deserializeFragment`: length check, field reads, length check against
`dataLength`, checksum verification. -/
def deserializeFragment (sha : List Nat → List Nat) (buffer : List Nat) :
    Except FragmentError Fragment :=
  if buffer.length < 16 then .error .tooShort
  else
    let index := readU16 (buffer.take 2)
    let total := readU16 ((buffer.drop 2).take 2)
    let checksum := hexEncode ((buffer.drop 4).take 8)
    let dataLength := readU32 ((buffer.drop 12).take 4)
    if buffer.length < 16 + dataLength then .error .truncated
    else
      let data := (buffer.drop 16).take dataLength
      if verifyChecksum sha data checksum then
        .ok ⟨index, total, data, checksum⟩
      else
        .error .corrupt

/-- `reassembleFragments`: require all `total` fragments, sort by index,
check the indices are exactly `0..total-1`, concatenate. -/
def reassembleFragments (fragments : List Fragment) : Except FragmentError (List Nat) :=
  match fragments with
  | [] => .error .noFragments
  | f0 :: _ =>
    if fragments.length ≠ f0.total then .error .missingCount
    else
      let sorted := fragments.mergeSort fun a b => decide (a.index ≤ b.index)
      match (List.range sorted.length).find?
          (fun i => decide ((sorted.getD i ⟨0, 0, [], []⟩).index ≠ i)) with
      | some i => .error (.missingIndex i)
      | none => .ok (sorted.flatMap Fragment.data)

/-! ### Fragmenter evaluations -/

theorem calcChecksum_shaZ (d : List Nat) :
    calculateChecksum shaZ d = List.replicate 16 0 := rfl

/-- C3.  The fragment round-trip `reassemble(fragment(x)) = x` is the
specified behaviour, but the code cannot fragment any payload larger than
`minChunkSize`: already at 65537 bytes the first loop iteration computes
`variance = Math.min((65537/2) * 0.3, 458752) = 9830.55`, a non-integer,
and `randomInt(-variance, variance)` forwards it to `crypto.randomInt`,
which rejects non-safe-integer bounds.  `fragmentData` therefore throws
instead of returning fragments, and the round-trip never happens.  (The
value 9830.55 is 0.45 away from the nearest integer, so the IEEE-754
computation is non-integral exactly like the rational one.) -/
theorem C3_fragment_roundtrip_bug :
    fragmentData shaZ (fun _ => 0) (List.replicate 65537 0) =
      .error .nonIntegerRandomBound ∧
    (fragmentData shaZ (fun _ => 0) (List.replicate 65537 0)).bind reassembleFragments =
      .error .nonIntegerRandomBound := by
  have h : fragmentData shaZ (fun _ => 0) (List.replicate 65537 0) =
      .error .nonIntegerRandomBound := by
    have hceil : ⌈(65537 : ℚ) / 294912⌉ = (1 : Int) := by
      rw [Int.ceil_eq_iff]; constructor <;> norm_num
    norm_num [fragmentData, List.length_replicate, chunkSizes, hceil, min_def, max_def]
  exact ⟨h, by rw [h]; rfl⟩

/-- Evaluation of `fragmentData` on a 100000-byte payload with the oracle
returning 0 (well inside the permitted range `[-15000, 15000]`; every
variance met on this input is an exact integer, in IEEE 754 arithmetic as
in `ℚ`): two fragments of 34464 and 65536 bytes. -/
theorem fragmentData_100000 :
    fragmentData shaZ (fun _ => 0) (List.replicate 100000 0) =
      .ok [⟨0, 2, List.replicate 34464 0, List.replicate 16 0⟩,
           ⟨1, 2, List.replicate 65536 0, List.replicate 16 0⟩] := by
  have hceil : ⌈(3125 : ℚ) / 9216⌉ = (1 : Int) := by
    rw [Int.ceil_eq_iff]; constructor <;> norm_num
  norm_num [fragmentData, List.length_replicate, chunkSizes, hceil, min_def, max_def,
    sliceChunks, List.take_replicate, List.drop_replicate, List.enum, calcChecksum_shaZ]
  exact ⟨rfl, rfl⟩

/-- The oracle for the 1769400-byte evaluation; each value lies within the
`[-variance, variance]` range of its iteration (variances are 88470, 93777,
100809, 110889, 127521 — all exact integers, in IEEE 754 as in `ℚ`). -/
def randC4 : Nat → Int := fun i =>
  ([-88450, -93760, -100800, -110880, -127521] : List Int).getD i 0

/-- Evaluation of `fragmentData` on a 1769400-byte payload: six fragments
whose last one holds 552591 bytes — larger than `maxChunkSize`. -/
theorem fragmentData_1769400 :
    fragmentData shaZ randC4 (List.replicate 1769400 0) =
      .ok [⟨0, 6, List.replicate 206450 0, List.replicate 16 0⟩,
           ⟨1, 6, List.replicate 218830 0, List.replicate 16 0⟩,
           ⟨2, 6, List.replicate 235230 0, List.replicate 16 0⟩,
           ⟨3, 6, List.replicate 258750 0, List.replicate 16 0⟩,
           ⟨4, 6, List.replicate 297549 0, List.replicate 16 0⟩,
           ⟨5, 6, List.replicate 552591 0, List.replicate 16 0⟩] := by
  have hceil : ⌈(24575 : ℚ) / 4096⌉ = (6 : Int) := by
    rw [Int.ceil_eq_iff]; constructor <;> norm_num
  norm_num [fragmentData, List.length_replicate, chunkSizes, hceil, min_def, max_def,
    sliceChunks, List.take_replicate, List.drop_replicate, List.enum, calcChecksum_shaZ,
    (show Int.toNat 6 = 6 from rfl),
    (show randC4 0 = -88450 from rfl), (show randC4 1 = -93760 from rfl),
    (show randC4 2 = -100800 from rfl), (show randC4 3 = -110880 from rfl),
    (show randC4 4 = -127521 from rfl)]
  and_intros <;> rfl

/-- The chunk-size loop invariant: when it succeeds with `k * minC + 1 ≤
remaining` bytes, it returns `k + 1` sizes summing to `remaining`; the `k`
drawn sizes lie in `[1, maxC]` (the second clamp can push them below
`minC`), and the final remainder-size is at least `minC`. -/
theorem chunkSizes_spec (rand : Nat → Int) (minC maxC actual : Nat)
    (hmin : 1 ≤ minC) (hmm : minC ≤ maxC) :
    ∀ (k : Nat) (rem : Int) (sizes : List Int),
      (k : Int) * minC + 1 ≤ rem →
      chunkSizes rand minC maxC actual k rem = .ok sizes →
      sizes.length = k + 1 ∧
      (∀ j < k, 1 ≤ sizes.getD j 0 ∧ sizes.getD j 0 ≤ (maxC : Int)) ∧
      sizes.sum = rem ∧
      (k = 0 → sizes.getD 0 0 = rem) ∧
      (1 ≤ k → (minC : Int) ≤ sizes.getD k 0) := by
  intro k
  induction k with
  | zero =>
    intro rem sizes hrem hok
    simp only [chunkSizes] at hok
    injection hok with hok
    subst hok
    refine ⟨rfl, by omega, by simp, fun _ => rfl, by omega⟩
  | succ k ih =>
    intro rem sizes hrem hok
    simp only [chunkSizes] at hok
    split at hok
    · exact absurd hok (by simp)
    · next hint =>
      split at hok
      · exact absurd hok (by simp)
      · next rest heq =>
        injection hok with hok
        subst hok
        set c1 : Int :=
          ⌊(rem : ℚ) / ((k : ℚ) + 2) + ((rand (actual - k - 2) : Int) : ℚ)⌋ with hc1
        set c2 : Int := max (minC : Int) (min (maxC : Int) c1) with hc2
        set c3 : Int := min c2 (rem - ((k : Int) + 1) * (minC : Int)) with hc3
        have hc2lo : (minC : Int) ≤ c2 := le_max_left _ _
        have hc2hi : c2 ≤ (maxC : Int) := by
          rw [hc2]
          exact max_le (by exact_mod_cast hmm) (min_le_left _ _)
        have hslack : 1 ≤ rem - ((k : Int) + 1) * (minC : Int) := by
          push_cast at hrem
          omega
        have hc3lo : 1 ≤ c3 := by
          rw [hc3]
          apply le_min (by omega) hslack
        have hc3hi : c3 ≤ (maxC : Int) := le_trans (min_le_left _ _) hc2hi
        have hrem2 : rem - c3 ≥ ((k : Int) + 1) * (minC : Int) := by
          have := min_le_right c2 (rem - ((k : Int) + 1) * (minC : Int))
          rw [← hc3] at this
          omega
        have hinv2 : (k : Int) * minC + 1 ≤ rem - c3 := by
          have h1 : (1 : Int) ≤ (minC : Int) := by exact_mod_cast hmin
          nlinarith
        obtain ⟨hlen, hbounds, hsum, hzero, hlast⟩ := ih (rem - c3) rest hinv2 heq
        refine ⟨by simp [hlen], ?_, by simp [hsum], by omega, ?_⟩
        · intro j hj
          match j with
          | 0 => exact ⟨hc3lo, hc3hi⟩
          | j' + 1 =>
            have := hbounds j' (by omega)
            simpa using this
        · intro _
          show (minC : Int) ≤ (c3 :: rest).getD (k + 1) 0
          have hstep : (c3 :: rest).getD (k + 1) 0 = rest.getD k 0 := by simp
          rw [hstep]
          match k, hlast, hzero, hrem2 with
          | 0, _, hzero, hrem2 =>
            rw [hzero rfl]
            omega
          | k' + 1, hlast, _, _ =>
            exact hlast (by omega)

theorem length_sliceChunks (data : List Nat) (sizes : List Nat) :
    (sliceChunks data sizes).length = sizes.length := by
  induction sizes generalizing data with
  | nil => rfl
  | cons s rest ih => simp [sliceChunks, ih]

theorem sliceChunks_lengths (sizes : List Nat) :
    ∀ (data : List Nat), sizes.sum ≤ data.length →
      ∀ j < sizes.length, ((sliceChunks data sizes).getD j []).length = sizes.getD j 0 := by
  induction sizes with
  | nil => intro data _ j hj; simp at hj
  | cons s rest ih =>
    intro data hsum j hj
    match j with
    | 0 =>
      show (data.take s).length = s
      rw [List.length_take]
      simp at hsum
      omega
    | j' + 1 =>
      show ((sliceChunks (data.drop s) rest).getD j' []).length = rest.getD j' 0
      apply ih
      · rw [List.length_drop]
        simp at hsum
        omega
      · simpa using hj

theorem sum_map_toNat (l : List Int) (h : ∀ x ∈ l, 0 ≤ x) :
    ((l.map Int.toNat).sum : Int) = l.sum := by
  induction l with
  | nil => rfl
  | cons x rest ih =>
    have hx : 0 ≤ x := h x (by simp)
    have ih2 := ih (fun y hy => h y (by simp [hy]))
    simp only [List.map_cons, List.sum_cons, Nat.cast_add]
    omega

/-- The entry invariant of the chunk loop for the default chunk bounds:
`actualFragments` of `fragmentData` always leaves at least `minChunk` bytes
plus one for the drawn chunks. -/
theorem fragment_entry_invariant (len : Nat) (hbig : 65536 < len) :
    (((max 2 (min ⌈(len : ℚ) / ((((65536 : Nat) : ℚ) + ((524288 : Nat) : ℚ)) / 2)⌉ 100)).toNat
        - 1 : Nat) : Int) * (65536 : Nat) + 1 ≤ (len : Int) := by
  have havg : ((((65536 : Nat) : ℚ) + ((524288 : Nat) : ℚ)) / 2) = 294912 := by norm_num
  rw [havg]
  set est : Int := ⌈(len : ℚ) / 294912⌉ with hest
  have hup : ((est : ℚ) - 1) * 294912 < len := by
    have h1 : (est : ℚ) < (len : ℚ) / 294912 + 1 := Int.ceil_lt_add_one _
    have h2 : (est : ℚ) - 1 < (len : ℚ) / 294912 := by linarith
    have h3 : ((est : ℚ) - 1) * 294912 < (len : ℚ) / 294912 * 294912 := by
      apply mul_lt_mul_of_pos_right h2
      norm_num
    rwa [div_mul_cancel₀] at h3
    norm_num
  have hupz : (est - 1) * 294912 < (len : Int) := by exact_mod_cast hup
  have hA : (max 2 (min est 100)).toNat = (max 2 (min est 100)).toNat := rfl
  rcases le_or_lt est 2 with hle | hgt
  · have : max 2 (min est 100) = 2 := by omega
    rw [this]
    simp
    omega
  · rcases le_or_lt est 100 with hle2 | hgt2
    · have : max 2 (min est 100) = est := by omega
      rw [this]
      have htn : ((est.toNat - 1 : Nat) : Int) = est - 1 := by omega
      rw [htn]
      have hmul : (est - 1) * (65536 : Int) ≤ (est - 1) * 294912 := by nlinarith
      push_cast
      omega
    · have : max 2 (min est 100) = 100 := by omega
      rw [this]
      simp
      omega

/-- C4 (amended).  When `fragmentData` succeeds on a payload longer than
`minChunk` (it throws on a non-integral `variance`, see the C3/C4
evaluations), it produces exactly
`clamp(ceil(|payload| / avgChunk), 2, 100)` fragments with
`avgChunk = (minChunk + maxChunk) / 2`; every fragment before the last
holds between 1 and `maxChunk` bytes — the reserve clamp can push a drawn
chunk below `minChunk` — and the last fragment holds at least `minChunk`
bytes but is not bounded by `maxChunk`. -/
theorem C4_fragment_count_and_sizes (sha : List Nat → List Nat) (rand : Nat → Int)
    (data : List Nat) (frags : List Fragment)
    (hbig : 65536 < data.length)
    (hok : fragmentData sha rand data = .ok frags) :
    frags.length =
      (max 2 (min ⌈(data.length : ℚ) / ((((65536 : Nat) : ℚ) + ((524288 : Nat) : ℚ)) / 2)⌉
        100)).toNat ∧
    (∀ j, j + 1 < frags.length →
      1 ≤ (frags.getD j ⟨0, 0, [], []⟩).data.length ∧
      (frags.getD j ⟨0, 0, [], []⟩).data.length ≤ 524288) ∧
    65536 ≤ (frags.getD (frags.length - 1) ⟨0, 0, [], []⟩).data.length := by
  rw [fragmentData] at hok
  rw [if_neg (by omega)] at hok
  simp only [] at hok
  split at hok
  · exact absurd hok (by simp)
  · next sizes heq =>
    injection hok with hok
    subst hok
    set est : Int :=
      ⌈(data.length : ℚ) / ((((65536 : Nat) : ℚ) + ((524288 : Nat) : ℚ)) / 2)⌉ with hestdef
    set A : Int := max 2 (min est 100) with hAdef
    have hA2 : 2 ≤ A.toNat := by
      have : (2 : Int) ≤ A := le_max_left _ _
      omega
    have hinv : ((A.toNat - 1 : Nat) : Int) * ((65536 : Nat) : Int) + 1 ≤
        (data.length : Int) :=
      fragment_entry_invariant data.length hbig
    obtain ⟨hlen, hbounds, hsum, _, hlast⟩ :=
      chunkSizes_spec rand 65536 524288 A.toNat (by norm_num) (by norm_num)
        (A.toNat - 1) (data.length : Int) sizes hinv heq
    have hlenA : sizes.length = A.toNat := by omega
    have hnonneg : ∀ x ∈ sizes, 0 ≤ x := by
      intro x hx
      rw [List.mem_iff_getElem] at hx
      obtain ⟨j, hj, hxv⟩ := hx
      have hgd : sizes.getD j 0 = x := by
        rw [List.getD_eq_getElem _ _ hj, hxv]
      by_cases hjk : j < A.toNat - 1
      · have := (hbounds j (by omega)).1
        omega
      · have hjeq : j = A.toNat - 1 := by omega
        have := hlast (by omega)
        rw [hjeq] at hgd
        omega
    have hsumNat : (sizes.map Int.toNat).sum = data.length := by
      have := sum_map_toNat sizes hnonneg
      omega
    have hchunklen : (sliceChunks data (sizes.map Int.toNat)).length = A.toNat := by
      rw [length_sliceChunks, List.length_map, hlenA]
    have hfraglen :
        ((sliceChunks data (sizes.map Int.toNat)).enum.map fun ic =>
          (⟨ic.1, (sliceChunks data (sizes.map Int.toNat)).length, ic.2,
            calculateChecksum sha ic.2⟩ : Fragment)).length = A.toNat := by
      rw [List.length_map, List.enum_length, hchunklen]
    have hdata : ∀ j, j < A.toNat →
        (((sliceChunks data (sizes.map Int.toNat)).enum.map fun ic =>
          (⟨ic.1, (sliceChunks data (sizes.map Int.toNat)).length, ic.2,
            calculateChecksum sha ic.2⟩ : Fragment)).getD j ⟨0, 0, [], []⟩).data.length =
        (sizes.getD j 0).toNat := by
      intro j hj
      rw [List.getD_eq_getElem _ _ (by rw [hfraglen]; omega)]
      rw [List.getElem_map]
      have hjc : j < (sliceChunks data (sizes.map Int.toNat)).enum.length := by
        rw [List.enum_length, hchunklen]; omega
      rw [List.getElem_enum]
      show ((sliceChunks data (sizes.map Int.toNat))[j]).length = (sizes.getD j 0).toNat
      have hje : j < (sizes.map Int.toNat).length := by
        rw [List.length_map, hlenA]; omega
      have h1 : ((sliceChunks data (sizes.map Int.toNat)).getD j []).length =
          (sizes.map Int.toNat).getD j 0 :=
        sliceChunks_lengths (sizes.map Int.toNat) data (le_of_eq hsumNat) j hje
      rw [List.getD_eq_getElem _ _ (by rw [length_sliceChunks]; exact hje)] at h1
      rw [h1]
      rw [List.getD_eq_getElem _ _ hje, List.getElem_map]
      rw [List.getD_eq_getElem _ _ (by simpa using hje)]
  -- done with structure; now the three conclusions
    refine ⟨hfraglen, ?_, ?_⟩
    · intro j hj
      rw [hfraglen] at hj
      rw [hdata j (by omega)]
      have := hbounds j (by omega)
      omega
    · rw [hfraglen]
      rw [hdata (A.toNat - 1) (by omega)]
      have := hlast (by omega)
      omega

/-- C4 counterexample.  At 100000 bytes the code emits fragments of 34464
and 65536 bytes: the first (non-last) fragment is smaller than
`minChunk = 65536`, because the reserve clamp
`chunkSize = min(chunkSize, remaining - (rf-1)*minChunk)` overrides the
`[minChunk, maxChunk]` clamp.  At 1769400 bytes (with in-range draws) the
last fragment is 552591 bytes, larger than `maxChunk = 524288`. -/
theorem C4_fragment_sizes_counterexample :
    (fragmentData shaZ (fun _ => 0) (List.replicate 100000 0)).map
        (fun fs => fs.map fun f => f.data.length) = .ok [34464, 65536] ∧
    34464 < 65536 ∧
    (fragmentData shaZ randC4 (List.replicate 1769400 0)).map
        (fun fs => fs.map fun f => f.data.length) =
      .ok [206450, 218830, 235230, 258750, 297549, 552591] ∧
    524288 < 552591 := by
  refine ⟨?_, by norm_num, ?_, by norm_num⟩
  · rw [fragmentData_100000]
    simp only [Except.map, List.map_cons, List.map_nil, List.length_replicate]
  · rw [fragmentData_1769400]
    simp only [Except.map, List.map_cons, List.map_nil, List.length_replicate]

/-- Witness for the amended C4 at the concrete 100000-byte payload. -/
theorem C4_fragment_count_and_sizes_witness :
    ∃ frags : List Fragment,
      fragmentData shaZ (fun _ => 0) (List.replicate 100000 0) = .ok frags ∧
      frags.length =
        (max 2 (min ⌈((List.replicate 100000 (0 : Nat)).length : ℚ) /
          ((((65536 : Nat) : ℚ) + ((524288 : Nat) : ℚ)) / 2)⌉ 100)).toNat ∧
      65536 ≤ (frags.getD (frags.length - 1) ⟨0, 0, [], []⟩).data.length := by
  refine ⟨_, fragmentData_100000, ?_, ?_⟩
  · exact (C4_fragment_count_and_sizes shaZ (fun _ => 0) _ _
      (by rw [List.length_replicate]; omega) fragmentData_100000).1
  · exact (C4_fragment_count_and_sizes shaZ (fun _ => 0) _ _
      (by rw [List.length_replicate]; omega) fragmentData_100000).2.2

/-! ### Fragment serialization (C6) -/

theorem length_hexDecode : ∀ l : List Nat, (hexDecode l).length = l.length / 2
  | [] => rfl
  | [_] => by simp [hexDecode]
  | _ :: _ :: rest => by
    show (hexDecode rest).length + 1 = (rest.length + 2) / 2
    rw [length_hexDecode rest]
    omega

/-- C6.  `serializeFragment` lays a fragment out as
`uint16be index ‖ uint16be total ‖ 8 checksum bytes ‖ uint32be dataLength ‖
data` with a 16-byte header; `deserializeFragment` inverts it; and over all
buffers, deserialization fails with the short-buffer error exactly when the
buffer cannot hold the header, with the truncation error exactly when it
holds the header but not `dataLength` more bytes, and with the corruption
error exactly when the lengths suffice and the checksum over the data bytes
mismatches. -/
theorem C6_fragment_serialization (sha : List Nat → List Nat) :
    (∀ f : Fragment, f.checksum.length = 16 →
      serializeFragment f =
        u16be f.index ++ u16be f.total ++ hexDecode f.checksum ++
          u32be f.data.length ++ f.data ∧
      (serializeFragment f).length = 16 + f.data.length) ∧
    (∀ f : Fragment, f.index < 65536 → f.total < 65536 →
      f.data.length < 4294967296 →
      f.checksum = calculateChecksum sha f.data →
      (sha f.data).length = 32 →
      deserializeFragment sha (serializeFragment f) = .ok f) ∧
    (∀ buffer : List Nat,
      (deserializeFragment sha buffer = .error .tooShort ↔ buffer.length < 16) ∧
      (deserializeFragment sha buffer = .error .truncated ↔
        16 ≤ buffer.length ∧
        buffer.length < 16 + readU32 ((buffer.drop 12).take 4)) ∧
      (deserializeFragment sha buffer = .error .corrupt ↔
        16 + readU32 ((buffer.drop 12).take 4) ≤ buffer.length ∧
        verifyChecksum sha ((buffer.drop 16).take (readU32 ((buffer.drop 12).take 4)))
          (hexEncode ((buffer.drop 4).take 8)) = false)) := by
  refine ⟨?_, ?_, ?_⟩
  · intro f hcs
    refine ⟨rfl, ?_⟩
    simp [serializeFragment, u16be, u32be, length_hexDecode, hcs]
    omega
  · intro f hidx htot hlen32 hcs hsha32
    have hcsb : hexDecode f.checksum = (sha f.data).take 8 := by
      rw [hcs, calculateChecksum, hexDecode_hexEncode]
    have hcsblen : (hexDecode f.checksum).length = 8 := by
      rw [hcsb, List.length_take, hsha32]
      omega
    rw [deserializeFragment, serializeFragment]
    simp only [List.append_assoc]
    set buf := u16be f.index ++
      (u16be f.total ++ (hexDecode f.checksum ++ (u32be f.data.length ++ f.data))) with hbuf
    have hbuflen : buf.length = 16 + f.data.length := by
      simp [hbuf, u16be, u32be, hcsblen]
      omega
    have hd2 : buf.drop 2 = u16be f.total ++ (hexDecode f.checksum ++ (u32be f.data.length ++ f.data)) :=
      List.drop_left' (show (u16be f.index).length = 2 from rfl)
    have hd4 : buf.drop 4 = hexDecode f.checksum ++ (u32be f.data.length ++ f.data) := by
      rw [show (4 : Nat) = 2 + 2 from rfl, ← List.drop_drop, hd2]
      exact List.drop_left' (show (u16be f.total).length = 2 from rfl)
    have hd12 : buf.drop 12 = u32be f.data.length ++ f.data := by
      rw [show (12 : Nat) = 4 + 8 from rfl, ← List.drop_drop, hd4]
      exact List.drop_left' hcsblen
    have hd16 : buf.drop 16 = f.data := by
      rw [show (16 : Nat) = 12 + 4 from rfl, ← List.drop_drop, hd12]
      exact List.drop_left' (show (u32be f.data.length).length = 4 from rfl)
    rw [if_neg (by omega)]
    rw [List.take_left' (show (u16be f.index).length = 2 from rfl)]
    rw [hd2, List.take_left' (show (u16be f.total).length = 2 from rfl)]
    rw [hd4, List.take_left' hcsblen]
    rw [hd12, List.take_left' (show (u32be f.data.length).length = 4 from rfl)]
    rw [readU16_u16be _ hidx, readU16_u16be _ htot, readU32_u32be _ hlen32]
    rw [if_neg (by omega)]
    rw [hd16, show f.data.take f.data.length = f.data from List.take_length f.data]
    have hver : verifyChecksum sha f.data (hexEncode (hexDecode f.checksum)) = true := by
      rw [hcsb, verifyChecksum, ← calculateChecksum, ← hcs]
      simp
    rw [if_pos hver]
    rw [hcsb, ← calculateChecksum, ← hcs]
  · intro buffer
    by_cases h1 : buffer.length < 16
    · rw [deserializeFragment, if_pos h1]
      exact ⟨iff_of_true rfl h1,
        iff_of_false (by simp) (by omega),
        iff_of_false (by simp) (by omega)⟩
    · rw [deserializeFragment, if_neg h1]
      by_cases h2 : buffer.length < 16 + readU32 ((buffer.drop 12).take 4)
      · rw [if_pos h2]
        exact ⟨iff_of_false (by simp) (by omega),
          iff_of_true rfl ⟨by omega, h2⟩,
          iff_of_false (by simp) (by omega)⟩
      · rw [if_neg h2]
        by_cases h3 : verifyChecksum sha ((buffer.drop 16).take (readU32 ((buffer.drop 12).take 4)))
            (hexEncode ((buffer.drop 4).take 8)) = true
        · rw [if_pos h3]
          refine ⟨iff_of_false (by simp) (by omega),
            iff_of_false (by simp) (by omega),
            iff_of_false (by simp) ?_⟩
          rintro ⟨-, h5⟩
          rw [h3] at h5
          exact absurd h5 (by simp)
        · rw [if_neg h3]
          exact ⟨iff_of_false (by simp) (by omega),
            iff_of_false (by simp) (by omega),
            iff_of_true rfl ⟨by omega, by simpa using h3⟩⟩

/-- Witness for C6 at a one-byte fragment. -/
theorem C6_fragment_serialization_witness :
    deserializeFragment shaZ (serializeFragment ⟨0, 1, [5], List.replicate 16 0⟩) =
      .ok ⟨0, 1, [5], List.replicate 16 0⟩ ∧
    (serializeFragment ⟨0, 1, [5], List.replicate 16 0⟩).length = 16 + 1 :=
  ⟨(C6_fragment_serialization shaZ).2.1 ⟨0, 1, [5], List.replicate 16 0⟩
      (by decide) (by decide) (by decide) (calcChecksum_shaZ [5]).symm rfl,
   ((C6_fragment_serialization shaZ).1 ⟨0, 1, [5], List.replicate 16 0⟩
      (by simp)).2⟩

/-! ### Key derivation (`src/crypto/kdf.ts`)

`deriveKey` calls the external `argon2` binding with `type: argon2id`,
`raw: true` and the caller-supplied parameters (defaulting to
`DEFAULT_KDF_PARAMS` from `src/types/index.ts`).  The binding is modelled
as a parameter; the wrapper adds no validation of its own.  HKDF
(`crypto.hkdfSync('sha256', master, empty-salt, context, length)`) is a
parameter likewise. -/

structure KdfParams where
  timeCost : Nat
  memoryCost : Nat
  parallelism : Nat
  hashLength : Nat
  deriving DecidableEq

/-- `DEFAULT_KDF_PARAMS` of `src/types/index.ts`: timeCost 3, memoryCost
65536 KiB (64 MiB), parallelism 4, hashLength 32. -/
def DEFAULT_KDF_PARAMS : KdfParams := ⟨3, 65536, 4, 32⟩

/-- `deriveKey(password, salt, params = DEFAULT_KDF_PARAMS)`. -/
def deriveKey (argon2id : String → List Nat → KdfParams → List Nat)
    (password : String) (salt : List Nat)
    (params : KdfParams := DEFAULT_KDF_PARAMS) : List Nat :=
  argon2id password salt params

/-- `deriveSubKey(masterKey, context, length = 32)`. -/
def deriveSubKey (hkdf : List Nat → String → Nat → List Nat)
    (masterKey : List Nat) (context : String) (length : Nat := 32) : List Nat :=
  hkdf masterKey context length

structure DerivedKeys where
  masterKey : List Nat
  indexKey : List Nat
  entryKey : List Nat
  metadataKey : List Nat

/-- `deriveAllKeys(password, salt)`: master key via Argon2id, then the
three labeled HKDF subkeys. -/
def deriveAllKeys (argon2id : String → List Nat → KdfParams → List Nat)
    (hkdf : List Nat → String → Nat → List Nat)
    (password : String) (salt : List Nat) : DerivedKeys :=
  let masterKey := deriveKey argon2id password salt
  ⟨masterKey,
   deriveSubKey hkdf masterKey "slasshy-index-key",
   deriveSubKey hkdf masterKey "slasshy-entry-key",
   deriveSubKey hkdf masterKey "slasshy-metadata-key"⟩

/-- An argon2 stand-in whose output records the parameters it was invoked
with, to exhibit that `deriveKey` forwards them unvalidated. -/
def argon2Echo : String → List Nat → KdfParams → List Nat :=
  fun _ _ p => [p.timeCost, p.memoryCost, p.parallelism, p.hashLength]

/-- C7 counterexample.  `deriveKey` accepts parameters weaker than the
defaults without any rejection: called with `timeCost = 2 < 3` it simply
invokes Argon2id with those parameters and returns the result — the
implementation has no error path and performs no comparison against
`DEFAULT_KDF_PARAMS`. -/
theorem C7_no_weak_param_rejection :
    deriveKey argon2Echo "pw" [0] ⟨2, 65536, 4, 32⟩ = [2, 65536, 4, 32] ∧
    deriveKey argon2Echo "pw" [0] ⟨2, 65536, 4, 32⟩ =
      argon2Echo "pw" [0] ⟨2, 65536, 4, 32⟩ :=
  ⟨rfl, rfl⟩

/-- C7 (amended).  The authoritative defaults are exactly
timeCost 3, memoryCost 64 MiB, parallelism 4, outputLen 32, and they are
what `deriveKey` uses when the caller passes no parameters; but weaker
caller-supplied parameters are not rejected — every parameter record is
forwarded to the Argon2id binding unchanged. -/
theorem C7_kdf_defaults :
    DEFAULT_KDF_PARAMS = ⟨3, 65536, 4, 32⟩ ∧
    (∀ (argon2id : String → List Nat → KdfParams → List Nat)
       (password : String) (salt : List Nat),
      deriveKey argon2id password salt = argon2id password salt ⟨3, 65536, 4, 32⟩) ∧
    (∀ (argon2id : String → List Nat → KdfParams → List Nat)
       (password : String) (salt : List Nat) (params : KdfParams),
      deriveKey argon2id password salt params = argon2id password salt params) :=
  ⟨rfl, fun _ _ _ => rfl, fun _ _ _ _ => rfl⟩

/-! ### In-memory key manager (`unnamed/part_011` and `cli/shell.ts`)

Buffers live in a store indexed by allocation order; `Buffer.from(key)` is
an allocation holding a copy of the source bytes, and `wipeBuffer`
overwrites a buffer in place (random bytes, then zeros — it ends as
zeros).  `SecureKeyHolder.setKey` first clears any previous key, then
stores the id of a fresh private copy; the auto-wipe timer is wall-clock
behaviour outside this model. -/

/-- The heap of tracked buffers. -/
abbrev Store := List (List Nat)

def readBuf (st : Store) (i : Nat) : List Nat :=
  List.getD st i []

def allocBuf (st : Store) (v : List Nat) : Store × Nat :=
  (st ++ [v], st.length)

/-- `wipeBuffer`: the buffer contents end as zeros of the same length. -/
def wipeBuf (st : Store) (i : Nat) : Store :=
  List.set st i (List.replicate (readBuf st i).length 0)

structure SecureKeyHolder where
  key : Option Nat

/-- `clear()`: wipe and drop the held buffer. -/
def SecureKeyHolder.clear (h : SecureKeyHolder) (st : Store) :
    SecureKeyHolder × Store :=
  match h.key with
  | none => (h, st)
  | some i => (⟨none⟩, wipeBuf st i)

/-- `setKey(key)`: `clear()`, then hold `Buffer.from(key)` — a fresh
private copy. -/
def SecureKeyHolder.setKey (h : SecureKeyHolder) (st : Store) (src : Nat) :
    SecureKeyHolder × Store :=
  let c := h.clear st
  let a := allocBuf c.2 (readBuf c.2 src)
  (⟨some a.2⟩, a.1)

/-- `getKey()`: the held buffer, or `null`. -/
def SecureKeyHolder.getKey (h : SecureKeyHolder) (st : Store) : Option (List Nat) :=
  h.key.map (readBuf st)

def SecureKeyHolder.hasKey (h : SecureKeyHolder) : Bool :=
  h.key.isSome

structure KeyManagerState where
  store : Store
  masterKeyHolder : SecureKeyHolder
  indexKeyHolder : SecureKeyHolder
  entryKeyHolder : SecureKeyHolder
  metadataKeyHolder : SecureKeyHolder
  keyHash : Option (List Nat)

/-- `unlockVault(password, salt)` of the key-manager section of
`cli/shell.ts`: derive all keys (four fresh buffers), hand each to its
holder via `setKey` (which copies), record `hashKey(masterKey)`, then wipe
the four original key buffers. -/
def unlockVault (argon2id : String → List Nat → KdfParams → List Nat)
    (hkdf : List Nat → String → Nat → List Nat)
    (sha : List Nat → List Nat)
    (password : String) (salt : List Nat)
    (st : KeyManagerState) : KeyManagerState :=
  let keys := deriveAllKeys argon2id hkdf password salt
  let a1 := allocBuf st.store keys.masterKey
  let a2 := allocBuf a1.1 keys.indexKey
  let a3 := allocBuf a2.1 keys.entryKey
  let a4 := allocBuf a3.1 keys.metadataKey
  let m := st.masterKeyHolder.setKey a4.1 a1.2
  let i := st.indexKeyHolder.setKey m.2 a2.2
  let e := st.entryKeyHolder.setKey i.2 a3.2
  let t := st.metadataKeyHolder.setKey e.2 a4.2
  let kh := sha keys.masterKey
  let s9 := wipeBuf t.2 a1.2
  let s10 := wipeBuf s9 a2.2
  let s11 := wipeBuf s10 a3.2
  let s12 := wipeBuf s11 a4.2
  ⟨s12, m.1, i.1, e.1, t.1, some kh⟩

def isVaultUnlocked (st : KeyManagerState) : Bool :=
  st.masterKeyHolder.hasKey

def getIndexKey (st : KeyManagerState) : Except String (List Nat) :=
  match st.indexKeyHolder.getKey st.store with
  | none => .error "Vault is locked. Please unlock first."
  | some k => .ok k

def getEntryKey (st : KeyManagerState) : Except String (List Nat) :=
  match st.entryKeyHolder.getKey st.store with
  | none => .error "Vault is locked. Please unlock first."
  | some k => .ok k

def getMetadataKey (st : KeyManagerState) : Except String (List Nat) :=
  match st.metadataKeyHolder.getKey st.store with
  | none => .error "Vault is locked. Please unlock first."
  | some k => .ok k

theorem readBuf_alloc_new (st : Store) (v : List Nat) :
    readBuf (st ++ [v]) st.length = v := by
  simp [readBuf, List.getD_append_right]

theorem readBuf_alloc_old (st : Store) (v : List Nat) (j : Nat) (h : j < st.length) :
    readBuf (st ++ [v]) j = readBuf st j := by
  simp only [readBuf, List.getD]
  rw [List.get?_append h]

theorem readBuf_set_other (st : Store) (i j : Nat) (v : List Nat) (h : j ≠ i) :
    readBuf (st.set i v) j = readBuf st j := by
  simp [readBuf, List.getD]
  rw [List.getElem?_set_ne (by omega)]

theorem readBuf_wipe_other (st : Store) (i j : Nat) (h : j ≠ i) :
    readBuf (wipeBuf st i) j = readBuf st j :=
  readBuf_set_other st i j _ h

theorem readBuf_wipe_same (st : Store) (i : Nat) (h : i < st.length) :
    readBuf (wipeBuf st i) i = List.replicate (readBuf st i).length 0 := by
  simp [wipeBuf, readBuf, List.getD]
  rw [List.getElem?_set_self (by omega)]
  rfl

theorem length_wipeBuf (st : Store) (i : Nat) :
    (wipeBuf st i).length = st.length := by
  simp [wipeBuf]

/-- What `setKey` does: the holder ends with a fresh private buffer at the
old end of the store holding a copy of the source bytes; every other
buffer except the holder's previous one is untouched. -/
theorem setKey_spec (h : SecureKeyHolder) (st : Store) (src : Nat)
    (hsrc : ∀ i ∈ h.key, src ≠ i) :
    (h.setKey st src).1 = ⟨some st.length⟩ ∧
    (h.setKey st src).2.length = st.length + 1 ∧
    readBuf (h.setKey st src).2 st.length = readBuf st src ∧
    (∀ j, j < st.length → (∀ i ∈ h.key, j ≠ i) →
      readBuf (h.setKey st src).2 j = readBuf st j) := by
  match hk : h.key with
  | none =>
    have hcl : h.clear st = (h, st) := by
      rw [SecureKeyHolder.clear, hk]
    refine ⟨?_, ?_, ?_, ?_⟩
    · simp [SecureKeyHolder.setKey, hcl, allocBuf]
    · simp [SecureKeyHolder.setKey, hcl, allocBuf]
    · simp only [SecureKeyHolder.setKey, hcl, allocBuf]
      exact readBuf_alloc_new st _
    · intro j hj _
      simp only [SecureKeyHolder.setKey, hcl, allocBuf]
      exact readBuf_alloc_old st _ j hj
  | some i0 =>
    have hcl : h.clear st = (⟨none⟩, wipeBuf st i0) := by
      rw [SecureKeyHolder.clear, hk]
    have hsrc0 : src ≠ i0 := hsrc i0 (by rw [hk]; rfl)
    have hwlen : (wipeBuf st i0).length = st.length := length_wipeBuf st i0
    refine ⟨?_, ?_, ?_, ?_⟩
    · simp [SecureKeyHolder.setKey, hcl, allocBuf, hwlen]
    · simp [SecureKeyHolder.setKey, hcl, allocBuf, hwlen]
    · simp only [SecureKeyHolder.setKey, hcl, allocBuf]
      rw [← hwlen]
      rw [readBuf_alloc_new (wipeBuf st i0) _]
      exact readBuf_wipe_other st i0 src hsrc0
    · intro j hj hne
      have hj0 : j ≠ i0 := hne i0 rfl
      simp only [SecureKeyHolder.setKey, hcl, allocBuf]
      rw [readBuf_alloc_old (wipeBuf st i0) _ j (by omega)]
      exact readBuf_wipe_other st i0 j hj0

/-- C9.  `SecureKeyHolder.setKey` stores a private copy, so the wipe of the
freshly derived key buffers at the end of `unlockVault` does not affect the
held keys: afterwards the vault reports unlocked, `getIndexKey`,
`getEntryKey` and `getMetadataKey` return exactly the HKDF subkeys for the
labels `slasshy-index-key`, `slasshy-entry-key` and `slasshy-metadata-key`
of the Argon2id master key, and the four buffers `deriveAllKeys` returned
are indeed zeroized.  The hypotheses say the holders of the initial state
reference existing buffers. -/
theorem C9_unlock_key_lifecycle
    (argon2id : String → List Nat → KdfParams → List Nat)
    (hkdf : List Nat → String → Nat → List Nat)
    (sha : List Nat → List Nat)
    (password : String) (salt : List Nat) (st : KeyManagerState)
    (hwfm : ∀ i ∈ st.masterKeyHolder.key, i < st.store.length)
    (hwfi : ∀ i ∈ st.indexKeyHolder.key, i < st.store.length)
    (hwfe : ∀ i ∈ st.entryKeyHolder.key, i < st.store.length)
    (hwft : ∀ i ∈ st.metadataKeyHolder.key, i < st.store.length) :
    isVaultUnlocked (unlockVault argon2id hkdf sha password salt st) = true ∧
    getIndexKey (unlockVault argon2id hkdf sha password salt st) =
      .ok (hkdf (argon2id password salt DEFAULT_KDF_PARAMS) "slasshy-index-key" 32) ∧
    getEntryKey (unlockVault argon2id hkdf sha password salt st) =
      .ok (hkdf (argon2id password salt DEFAULT_KDF_PARAMS) "slasshy-entry-key" 32) ∧
    getMetadataKey (unlockVault argon2id hkdf sha password salt st) =
      .ok (hkdf (argon2id password salt DEFAULT_KDF_PARAMS) "slasshy-metadata-key" 32) ∧
    (∀ k, k < 4 → readBuf (unlockVault argon2id hkdf sha password salt st).store
        (st.store.length + k) =
      List.replicate (readBuf [(deriveAllKeys argon2id hkdf password salt).masterKey,
        (deriveAllKeys argon2id hkdf password salt).indexKey,
        (deriveAllKeys argon2id hkdf password salt).entryKey,
        (deriveAllKeys argon2id hkdf password salt).metadataKey] k).length 0) := by
  set keys := deriveAllKeys argon2id hkdf password salt with hkeys
  set L := st.store.length with hL
  set s1 : Store := st.store ++ [keys.masterKey] with hs1
  set s2 : Store := s1 ++ [keys.indexKey] with hs2
  set s3 : Store := s2 ++ [keys.entryKey] with hs3
  set s4 : Store := s3 ++ [keys.metadataKey] with hs4
  have hl1 : s1.length = L + 1 := by simp [hs1]
  have hl2 : s2.length = L + 2 := by simp [hs2, hs1]
  have hl3 : s3.length = L + 3 := by simp [hs3, hs2, hs1]
  have hl4 : s4.length = L + 4 := by simp [hs4, hs3, hs2, hs1]
  have rd0 : readBuf s4 L = keys.masterKey := by
    rw [hs4, readBuf_alloc_old _ _ _ (by omega), hs3,
      readBuf_alloc_old _ _ _ (by omega), hs2, readBuf_alloc_old _ _ _ (by omega), hs1]
    exact readBuf_alloc_new _ _
  have rd1 : readBuf s4 (L + 1) = keys.indexKey := by
    rw [hs4, readBuf_alloc_old _ _ _ (by omega), hs3,
      readBuf_alloc_old _ _ _ (by omega), hs2]
    rw [show L + 1 = s1.length from by omega]
    exact readBuf_alloc_new _ _
  have rd2 : readBuf s4 (L + 2) = keys.entryKey := by
    rw [hs4, readBuf_alloc_old _ _ _ (by omega), hs3]
    rw [show L + 2 = s2.length from by omega]
    exact readBuf_alloc_new _ _
  have rd3 : readBuf s4 (L + 3) = keys.metadataKey := by
    rw [hs4]
    rw [show L + 3 = s3.length from by omega]
    exact readBuf_alloc_new _ _
  obtain ⟨mh1, ml, mcopy, mold⟩ :=
    setKey_spec st.masterKeyHolder s4 L (fun i hi => by have := hwfm i hi; omega)
  obtain ⟨ih1, il, icopy, iold⟩ :=
    setKey_spec st.indexKeyHolder (st.masterKeyHolder.setKey s4 L).2 (L + 1)
      (fun i hi => by have := hwfi i hi; omega)
  obtain ⟨eh1, el, ecopy, eold⟩ :=
    setKey_spec st.entryKeyHolder (st.indexKeyHolder.setKey
      (st.masterKeyHolder.setKey s4 L).2 (L + 1)).2 (L + 2)
      (fun i hi => by have := hwfe i hi; omega)
  obtain ⟨th1, tl, tcopy, told⟩ :=
    setKey_spec st.metadataKeyHolder (st.entryKeyHolder.setKey (st.indexKeyHolder.setKey
      (st.masterKeyHolder.setKey s4 L).2 (L + 1)).2 (L + 2)).2 (L + 3)
      (fun i hi => by have := hwft i hi; omega)
  have hm2l : (st.masterKeyHolder.setKey s4 L).2.length = L + 5 := by rw [ml, hl4]
  have hi2l : (st.indexKeyHolder.setKey
      (st.masterKeyHolder.setKey s4 L).2 (L + 1)).2.length = L + 6 := by rw [il, hm2l]
  have he2l : (st.entryKeyHolder.setKey (st.indexKeyHolder.setKey
      (st.masterKeyHolder.setKey s4 L).2 (L + 1)).2 (L + 2)).2.length = L + 7 := by
    rw [el, hi2l]
  have ht2l : (st.metadataKeyHolder.setKey (st.entryKeyHolder.setKey
      (st.indexKeyHolder.setKey (st.masterKeyHolder.setKey s4 L).2 (L + 1)).2
      (L + 2)).2 (L + 3)).2.length = L + 8 := by rw [tl, he2l]
  -- reading through the four setKey calls, at the low ids L..L+3
  have rlow : ∀ j, L ≤ j → j ≤ L + 3 →
      readBuf (st.metadataKeyHolder.setKey (st.entryKeyHolder.setKey
        (st.indexKeyHolder.setKey (st.masterKeyHolder.setKey s4 L).2 (L + 1)).2
        (L + 2)).2 (L + 3)).2 j = readBuf s4 j := by
    intro j hj1 hj2
    rw [told j (by omega) (fun i hi => by have := hwft i hi; omega)]
    rw [eold j (by omega) (fun i hi => by have := hwfe i hi; omega)]
    rw [iold j (by omega) (fun i hi => by have := hwfi i hi; omega)]
    exact mold j (by omega) (fun i hi => by have := hwfm i hi; omega)
  -- reading the three held subkey buffers
  have rheldi : readBuf (st.metadataKeyHolder.setKey (st.entryKeyHolder.setKey
      (st.indexKeyHolder.setKey (st.masterKeyHolder.setKey s4 L).2 (L + 1)).2
      (L + 2)).2 (L + 3)).2 (L + 5) = keys.indexKey := by
    rw [told (L + 5) (by omega) (fun i hi => by have := hwft i hi; omega)]
    rw [eold (L + 5) (by omega) (fun i hi => by have := hwfe i hi; omega)]
    rw [show L + 5 = (st.masterKeyHolder.setKey s4 L).2.length from by omega]
    rw [icopy]
    rw [mold (L + 1) (by omega) (fun i hi => by have := hwfm i hi; omega)]
    exact rd1
  have rhelde : readBuf (st.metadataKeyHolder.setKey (st.entryKeyHolder.setKey
      (st.indexKeyHolder.setKey (st.masterKeyHolder.setKey s4 L).2 (L + 1)).2
      (L + 2)).2 (L + 3)).2 (L + 6) = keys.entryKey := by
    rw [told (L + 6) (by omega) (fun i hi => by have := hwft i hi; omega)]
    rw [show L + 6 = (st.indexKeyHolder.setKey
      (st.masterKeyHolder.setKey s4 L).2 (L + 1)).2.length from by omega]
    rw [ecopy]
    rw [iold (L + 2) (by omega) (fun i hi => by have := hwfi i hi; omega)]
    rw [mold (L + 2) (by omega) (fun i hi => by have := hwfm i hi; omega)]
    exact rd2
  have rheldt : readBuf (st.metadataKeyHolder.setKey (st.entryKeyHolder.setKey
      (st.indexKeyHolder.setKey (st.masterKeyHolder.setKey s4 L).2 (L + 1)).2
      (L + 2)).2 (L + 3)).2 (L + 7) = keys.metadataKey := by
    rw [show L + 7 = (st.entryKeyHolder.setKey (st.indexKeyHolder.setKey
      (st.masterKeyHolder.setKey s4 L).2 (L + 1)).2 (L + 2)).2.length from by omega]
    rw [tcopy]
    rw [eold (L + 3) (by omega) (fun i hi => by have := hwfe i hi; omega)]
    rw [iold (L + 3) (by omega) (fun i hi => by have := hwfi i hi; omega)]
    rw [mold (L + 3) (by omega) (fun i hi => by have := hwfm i hi; omega)]
    exact rd3
  -- the final state
  have hstate : unlockVault argon2id hkdf sha password salt st =
      ⟨wipeBuf (wipeBuf (wipeBuf (wipeBuf
          (st.metadataKeyHolder.setKey (st.entryKeyHolder.setKey
            (st.indexKeyHolder.setKey (st.masterKeyHolder.setKey s4 L).2 (L + 1)).2
            (L + 2)).2 (L + 3)).2 L) (L + 1)) (L + 2)) (L + 3),
        (st.masterKeyHolder.setKey s4 L).1,
        (st.indexKeyHolder.setKey (st.masterKeyHolder.setKey s4 L).2 (L + 1)).1,
        (st.entryKeyHolder.setKey (st.indexKeyHolder.setKey
          (st.masterKeyHolder.setKey s4 L).2 (L + 1)).2 (L + 2)).1,
        (st.metadataKeyHolder.setKey (st.entryKeyHolder.setKey
          (st.indexKeyHolder.setKey (st.masterKeyHolder.setKey s4 L).2 (L + 1)).2
          (L + 2)).2 (L + 3)).1,
        some (sha keys.masterKey)⟩ := by
    simp only [unlockVault, allocBuf]
    rw [← hs1, ← hs2, ← hs3, ← hs4, ← hL, hl1, hl2, hl3]
  set t2 : Store := (st.metadataKeyHolder.setKey (st.entryKeyHolder.setKey
    (st.indexKeyHolder.setKey (st.masterKeyHolder.setKey s4 L).2 (L + 1)).2
    (L + 2)).2 (L + 3)).2 with ht2
  refine ⟨?_, ?_, ?_, ?_, ?_⟩
  · rw [hstate, mh1]
    rfl
  · rw [hstate]
    simp only [getIndexKey, ih1, hm2l]
    have hv : readBuf (wipeBuf (wipeBuf (wipeBuf (wipeBuf t2 L) (L + 1)) (L + 2)) (L + 3))
        (L + 5) = keys.indexKey := by
      rw [readBuf_wipe_other _ _ _ (by omega), readBuf_wipe_other _ _ _ (by omega),
        readBuf_wipe_other _ _ _ (by omega), readBuf_wipe_other _ _ _ (by omega)]
      exact rheldi
    simp only [SecureKeyHolder.getKey, Option.map_some, Option.map_some']
    rw [hv, hkeys]
    rfl
  · rw [hstate]
    simp only [getEntryKey, eh1, hi2l]
    have hv : readBuf (wipeBuf (wipeBuf (wipeBuf (wipeBuf t2 L) (L + 1)) (L + 2)) (L + 3))
        (L + 6) = keys.entryKey := by
      rw [readBuf_wipe_other _ _ _ (by omega), readBuf_wipe_other _ _ _ (by omega),
        readBuf_wipe_other _ _ _ (by omega), readBuf_wipe_other _ _ _ (by omega)]
      exact rhelde
    simp only [SecureKeyHolder.getKey, Option.map_some, Option.map_some']
    rw [hv, hkeys]
    rfl
  · rw [hstate]
    simp only [getMetadataKey, th1, he2l]
    have hv : readBuf (wipeBuf (wipeBuf (wipeBuf (wipeBuf t2 L) (L + 1)) (L + 2)) (L + 3))
        (L + 7) = keys.metadataKey := by
      rw [readBuf_wipe_other _ _ _ (by omega), readBuf_wipe_other _ _ _ (by omega),
        readBuf_wipe_other _ _ _ (by omega), readBuf_wipe_other _ _ _ (by omega)]
      exact rheldt
    simp only [SecureKeyHolder.getKey, Option.map_some, Option.map_some']
    rw [hv, hkeys]
    rfl
  · intro k hk
    rw [hstate]
    show readBuf (wipeBuf (wipeBuf (wipeBuf (wipeBuf t2 L) (L + 1)) (L + 2)) (L + 3))
        (L + k) = _
    interval_cases k
    · rw [readBuf_wipe_other _ _ _ (by omega), readBuf_wipe_other _ _ _ (by omega),
        readBuf_wipe_other _ _ _ (by omega)]
      rw [show L + 0 = L from by omega]
      rw [readBuf_wipe_same t2 L (by rw [ht2l]; omega)]
      rw [rlow L (by omega) (by omega), rd0]
      rfl
    · rw [readBuf_wipe_other _ _ _ (by omega), readBuf_wipe_other _ _ _ (by omega)]
      rw [readBuf_wipe_same _ (L + 1) (by rw [length_wipeBuf, ht2l]; omega)]
      rw [readBuf_wipe_other _ _ _ (by omega)]
      rw [rlow (L + 1) (by omega) (by omega), rd1]
      rfl
    · rw [readBuf_wipe_other _ _ _ (by omega)]
      rw [readBuf_wipe_same _ (L + 2)
        (by rw [length_wipeBuf, length_wipeBuf, ht2l]; omega)]
      rw [readBuf_wipe_other _ _ _ (by omega), readBuf_wipe_other _ _ _ (by omega)]
      rw [rlow (L + 2) (by omega) (by omega), rd2]
      rfl
    · rw [readBuf_wipe_same _ (L + 3)
        (by rw [length_wipeBuf, length_wipeBuf, length_wipeBuf, ht2l]; omega)]
      rw [readBuf_wipe_other _ _ _ (by omega), readBuf_wipe_other _ _ _ (by omega),
        readBuf_wipe_other _ _ _ (by omega)]
      rw [rlow (L + 3) (by omega) (by omega), rd3]
      rfl

/-- An HKDF stand-in that records its inputs, for concrete evaluation. -/
def hkdfTag : List Nat → String → Nat → List Nat :=
  fun key label n => key ++ [label.length, n]

theorem C9_unlock_key_lifecycle_witness :
    isVaultUnlocked (unlockVault argon2Echo hkdfTag shaZ "pw" [7]
      ⟨[], ⟨none⟩, ⟨none⟩, ⟨none⟩, ⟨none⟩, none⟩) = true ∧
    getIndexKey (unlockVault argon2Echo hkdfTag shaZ "pw" [7]
        ⟨[], ⟨none⟩, ⟨none⟩, ⟨none⟩, ⟨none⟩, none⟩) =
      .ok (hkdfTag (argon2Echo "pw" [7] DEFAULT_KDF_PARAMS) "slasshy-index-key" 32) ∧
    getEntryKey (unlockVault argon2Echo hkdfTag shaZ "pw" [7]
        ⟨[], ⟨none⟩, ⟨none⟩, ⟨none⟩, ⟨none⟩, none⟩) =
      .ok (hkdfTag (argon2Echo "pw" [7] DEFAULT_KDF_PARAMS) "slasshy-entry-key" 32) ∧
    getMetadataKey (unlockVault argon2Echo hkdfTag shaZ "pw" [7]
        ⟨[], ⟨none⟩, ⟨none⟩, ⟨none⟩, ⟨none⟩, none⟩) =
      .ok (hkdfTag (argon2Echo "pw" [7] DEFAULT_KDF_PARAMS) "slasshy-metadata-key" 32) ∧
    (∀ k, k < 4 → readBuf (unlockVault argon2Echo hkdfTag shaZ "pw" [7]
        ⟨[], ⟨none⟩, ⟨none⟩, ⟨none⟩, ⟨none⟩, none⟩).store
        (([] : Store).length + k) =
      List.replicate
        (readBuf [(deriveAllKeys argon2Echo hkdfTag "pw" [7]).masterKey,
          (deriveAllKeys argon2Echo hkdfTag "pw" [7]).indexKey,
          (deriveAllKeys argon2Echo hkdfTag "pw" [7]).entryKey,
          (deriveAllKeys argon2Echo hkdfTag "pw" [7]).metadataKey] k).length 0) :=
  C9_unlock_key_lifecycle argon2Echo hkdfTag shaZ "pw" [7]
    ⟨[], ⟨none⟩, ⟨none⟩, ⟨none⟩, ⟨none⟩, none⟩
    (by simp) (by simp) (by simp) (by simp)

/-! ### C5: single-bit corruption of the embedded header

The claim quantifies over an attacker operation on the produced image:
flipping one bit of the embedded length or checksum field.  Embedded bit
`j` lives in the LSB of channel-buffer byte `4 * (j / 3) + j % 3`, so the
perturbation is a toggle of that byte's least significant bit. -/

/-- Toggle the LSB of the pixel-buffer byte holding embedded bit `j`. -/
def flipLSB (pixels : List Nat) (j : Nat) : List Nat :=
  let idx := 4 * (j / 3) + j % 3
  let v := pixels.getD idx 0
  pixels.set idx (if v % 2 = 0 then v + 1 else v - 1)

/-- A byte with bit `t` toggled, bits numbered MSB-first as in
`bitsOfByte`. -/
def flipByte (v t : Nat) : Nat :=
  let p := [128, 64, 32, 16, 8, 4, 2, 1].getD t 0
  if v / p % 2 = 0 then v + p else v - p

theorem flipByte_ne (v t : Nat) (hv : v < 256) (ht : t < 8) : flipByte v t ≠ v := by
  interval_cases t <;>
    (simp only [flipByte, List.getD_cons_zero, List.getD_cons_succ]
     split <;> omega)

theorem flipByte_lt (v t : Nat) (hv : v < 256) (ht : t < 8) : flipByte v t < 256 := by
  interval_cases t <;>
    (simp only [flipByte, List.getD_cons_zero, List.getD_cons_succ]
     split <;> omega)

/-- Toggling bit `t` of a byte toggles entry `t` of its bit expansion. -/
theorem bitsOfByte_flip (v t : Nat) (hv : v < 256) (ht : t < 8) :
    bitsOfByte (flipByte v t) = (bitsOfByte v).set t (1 - (bitsOfByte v).getD t 0) := by
  interval_cases t <;>
    (simp only [flipByte, List.getD_cons_zero, List.getD_cons_succ]
     split <;> rename_i hc <;>
       (simp only [bitsOfByte, List.set_cons_zero, List.set_cons_succ,
          List.getD_cons_zero, List.getD_cons_succ, List.cons.injEq, and_true]
        omega))

theorem bytesToBits_cons (v : Nat) (l : List Nat) :
    bytesToBits (v :: l) = bitsOfByte v ++ bytesToBits l := by
  simp [bytesToBits]

theorem getD_append_right_zero (A B : List Nat) (j : Nat) (h : A.length ≤ j) :
    (A ++ B).getD j 0 = B.getD (j - A.length) 0 := by
  rw [List.getD_eq_getElem?_getD, List.getElem?_append_right h, ← List.getD_eq_getElem?_getD]

/-- Four bytes round-trip through `readUInt32BE` and back. -/
theorem u32be_readU32 (bs : List Nat) (hlen : bs.length = 4)
    (hB : ∀ b ∈ bs, b < 256) : u32be (readU32 bs) = bs := by
  rcases bs with _ | ⟨a, bs⟩
  · simp at hlen
  rcases bs with _ | ⟨b, bs⟩
  · simp at hlen
  rcases bs with _ | ⟨c, bs⟩
  · simp at hlen
  rcases bs with _ | ⟨d, bs⟩
  · simp at hlen
  rcases bs with _ | ⟨e, bs⟩
  · have ha : a < 256 := hB a (by simp)
    have hb : b < 256 := hB b (by simp)
    have hc : c < 256 := hB c (by simp)
    have hd : d < 256 := hB d (by simp)
    simp only [readU32, u32be, List.getD_cons_zero, List.getD_cons_succ,
      List.cons.injEq, and_true]
    omega
  · simp at hlen

theorem readU32_lt (bs : List Nat) (hlen : bs.length = 4)
    (hB : ∀ b ∈ bs, b < 256) : readU32 bs < 4294967296 := by
  have h0 : bs.getD 0 0 < 256 := by
    rw [List.getD_eq_getElem bs 0 (by omega)]
    exact hB _ (List.getElem_mem _)
  have h1 : bs.getD 1 0 < 256 := by
    rw [List.getD_eq_getElem bs 0 (by omega)]
    exact hB _ (List.getElem_mem _)
  have h2 : bs.getD 2 0 < 256 := by
    rw [List.getD_eq_getElem bs 0 (by omega)]
    exact hB _ (List.getElem_mem _)
  have h3 : bs.getD 3 0 < 256 := by
    rw [List.getD_eq_getElem bs 0 (by omega)]
    exact hB _ (List.getElem_mem _)
  rw [readU32]
  omega

/-- Toggling the LSB of the channel byte of slot `j` toggles stream bit `j`
and nothing else. -/
theorem lsbChannelStream_flipLSB (w h : Nat) (pixels : List Nat) (j : Nat)
    (hpix : pixels.length = 4 * (w * h)) (hj : j < w * h * 3) :
    lsbChannelStream w h (flipLSB pixels j) =
      (lsbChannelStream w h pixels).set j
        (1 - (lsbChannelStream w h pixels).getD j 0) := by
  have hJ : 4 * (j / 3) + j % 3 < pixels.length := by rw [hpix]; omega
  apply List.ext_getElem
  · simp [lsbChannelStream, flipLSB]
  · intro i h1 h2
    have hi : i < w * h * 3 := by
      simpa [lsbChannelStream, flipLSB] using h1
    have hL : (lsbChannelStream w h (flipLSB pixels j))[i] =
        (flipLSB pixels j).getD (4 * (i / 3) + i % 3) 0 % 2 := by
      simp [lsbChannelStream]
    have hgd : (lsbChannelStream w h pixels).getD j 0 =
        pixels.getD (4 * (j / 3) + j % 3) 0 % 2 := by
      rw [List.getD_eq_getElem?_getD]
      simp [lsbChannelStream, hj]
    by_cases hij : i = j
    · subst hij
      rw [hL, List.getElem_set_self h2, hgd]
      have hflip : (flipLSB pixels i).getD (4 * (i / 3) + i % 3) 0 =
          (if pixels.getD (4 * (i / 3) + i % 3) 0 % 2 = 0 then
            pixels.getD (4 * (i / 3) + i % 3) 0 + 1
          else pixels.getD (4 * (i / 3) + i % 3) 0 - 1) := by
        rw [flipLSB, List.getD_eq_getElem?_getD, List.getElem?_set_self hJ]
        rfl
      rw [hflip]
      split <;> rename_i hpar <;> omega
    · rw [hL]
      have hne : 4 * (j / 3) + j % 3 ≠ 4 * (i / 3) + i % 3 := by omega
      have hflip : (flipLSB pixels j).getD (4 * (i / 3) + i % 3) 0 =
          pixels.getD (4 * (i / 3) + i % 3) 0 := by
        rw [flipLSB, List.getD_eq_getElem?_getD, List.getElem?_set_ne hne,
          ← List.getD_eq_getElem?_getD]
      rw [hflip]
      rw [List.getElem_set_ne (fun hji => hij hji.symm) h2]
      simp [lsbChannelStream]

/-- Setting stream bit `8 q + t` to its complement equals flipping bit `t`
of byte `q` before expansion. -/
theorem bytesToBits_set_flip (bs : List Nat) (q t : Nat)
    (hq : q < bs.length) (ht : t < 8) (hB : ∀ b ∈ bs, b < 256) :
    (bytesToBits bs).set (8 * q + t) (1 - (bytesToBits bs).getD (8 * q + t) 0) =
      bytesToBits (bs.set q (flipByte (bs.getD q 0) t)) := by
  have hgdq : bs.getD q 0 = bs[q] := List.getD_eq_getElem bs 0 hq
  rw [hgdq]
  have hvlt : bs[q] < 256 := hB _ (List.getElem_mem hq)
  have hdecomp : bs = bs.take q ++ bs[q] :: bs.drop (q + 1) := by
    conv_lhs => rw [← List.take_append_drop q bs, List.drop_eq_getElem_cons hq]
  set v := bs[q] with hv
  have htl : (bs.take q).length = q := by rw [List.length_take]; omega
  have hbl : (bytesToBits (bs.take q)).length = 8 * q := by
    rw [length_bytesToBits, htl]
  have hbits8 : (bitsOfByte v).length = 8 := by simp [bitsOfByte]
  have hval : (bytesToBits bs).getD (8 * q + t) 0 = (bitsOfByte v).getD t 0 := by
    conv_lhs => rw [hdecomp]
    rw [bytesToBits_append, bytesToBits_cons]
    rw [List.getD_eq_getElem?_getD, List.getElem?_append_right (by rw [hbl]; omega),
      hbl, Nat.add_sub_cancel_left]
    rw [List.getElem?_append_left (by rw [hbits8]; omega), ← List.getD_eq_getElem?_getD]
  rw [hval]
  conv_lhs => rw [hdecomp]
  conv_rhs => rw [hdecomp]
  rw [bytesToBits_append, bytesToBits_cons]
  rw [List.set_append_right _ _ (by rw [hbl]; omega), hbl, Nat.add_sub_cancel_left]
  rw [List.set_append_left _ _ (by rw [hbits8]; omega)]
  rw [← bitsOfByte_flip v t hvlt ht]
  rw [List.set_append_right _ _ (by rw [htl])]
  rw [htl, Nat.sub_self, List.set_cons_zero]
  rw [bytesToBits_append, bytesToBits_cons]

/-- C5 (amended).  Flipping one bit of the embedded length field (stream
bits 32..63) or checksum field (bits 64..127) of an image produced by a
successful `embedInPNG` never yields the "Invalid header" error (the spec's
`NoPayload`) and never returns the original payload: any successful
extraction returns data of a different length.  A checksum-field flip fails
with exactly the checksum-mismatch error (the spec's `Corrupt`).  A
length-field flip, however, can fail with "Incomplete data" — the spec's
`Truncated`, not `NoPayload` or `Corrupt` — as the counterexample shows. -/
theorem C5_stego_header_flip (sha : List Nat → List Nat) (w h : Nat)
    (pixels d : List Nat) (j : Nat)
    (hpix : pixels.length = 4 * (w * h))
    (hd : ∀ b ∈ d, b < 256)
    (hsha32 : ∀ x, (sha x).length = 32)
    (hshaB : ∀ x, ∀ b ∈ sha x, b < 256)
    (hcap : (d.length : Int) ≤ calculateCapacity w h)
    (h32 : d.length < 4294967296)
    (hj1 : 32 ≤ j) (hj2 : j < 128) :
    ∀ pixels2 res, embedInPNG sha w h pixels d = .ok (pixels2, res) →
      extractFromPNG sha w h (flipLSB pixels2 j) ≠ .error .invalidHeader ∧
      (∀ r, extractFromPNG sha w h (flipLSB pixels2 j) = .ok r →
        r.data.length ≠ d.length) ∧
      (64 ≤ j → extractFromPNG sha w h (flipLSB pixels2 j) =
        .error .checksumMismatch) := by
  intro pixels2 res hemb
  rw [embedInPNG_ok sha w h pixels d hcap] at hemb
  simp only [Except.ok.injEq, Prod.mk.injEq] at hemb
  obtain ⟨hE, hR⟩ := hemb
  subst hE
  clear hR
  set E := embedBits (bytesToBits (createHeader d.length (calculateChecksum sha d) ++ d))
    pixels with hEdef
  set T := bytesToBits d ++ (lsbChannelStream w h pixels).drop (8 * (16 + d.length)) with hT
  set H := MAGIC_BYTES ++ u32be d.length ++ (sha d).take 8 with hH
  have hstream : lsbChannelStream w h E = bytesToBits H ++ T :=
    stream_of_embed sha w h pixels d hpix (hsha32 d) hcap
  have hElen : E.length = 4 * (w * h) := by
    rw [hEdef]
    simp only [embedBits, List.length_map, List.length_range]
    exact hpix
  have hbitsfit : 8 * (16 + d.length) ≤ w * h * 3 := capacity_bits_fit w h d.length hcap
  have hjlt : j < w * h * 3 := by omega
  have hH16 : H.length = 16 := (createHeader_checksum sha d (hsha32 d)).2
  have hHB : ∀ b ∈ H, b < 256 := header_bytes_lt_256 sha d (hshaB d)
  have hHbits : (bytesToBits H).length = 128 := by rw [length_bytesToBits, hH16]
  have hflip2 : lsbChannelStream w h (flipLSB E j) =
      (bytesToBits H).set j (1 - (bytesToBits H).getD j 0) ++ T := by
    rw [lsbChannelStream_flipLSB w h E j hElen hjlt, hstream]
    rw [List.getD_append (bytesToBits H) T 0 j (by rw [hHbits]; omega)]
    rw [List.set_append_left j _ (show j < (bytesToBits H).length from by rw [hHbits]; omega)]
  have hj8 : 8 * (j / 8) + j % 8 = j := by omega
  have happly := bytesToBits_set_flip H (j / 8) (j % 8) (by rw [hH16]; omega) (by omega) hHB
  rw [hj8] at happly
  rw [happly] at hflip2
  have hMU : (MAGIC_BYTES ++ u32be d.length).length = 8 := by simp [MAGIC_BYTES, u32be]
  have hM4 : MAGIC_BYTES.length = 4 := rfl
  have hulen : (u32be d.length).length = 4 := by simp [u32be]
  have hc8len : ((sha d).take 8).length = 8 := by rw [List.length_take, hsha32 d]; omega
  have hc8B : ∀ b ∈ (sha d).take 8, b < 256 := fun b hb => hshaB d b (List.take_subset _ _ hb)
  have hTlen : T.length =
      8 * d.length + ((lsbChannelStream w h pixels).drop (8 * (16 + d.length))).length := by
    rw [hT, List.length_append, length_bytesToBits]
  by_cases hj64 : j < 64
  · -- length-field flip
    have hgdH : H.getD (j / 8) 0 = (u32be d.length).getD (j / 8 - 4) 0 := by
      rw [hH]
      rw [List.getD_append (MAGIC_BYTES ++ u32be d.length) _ 0 _ (by rw [hMU]; omega)]
      rw [getD_append_right_zero _ _ _ (by rw [hM4]; omega), hM4]
    have hold_lt : (u32be d.length).getD (j / 8 - 4) 0 < 256 := by
      rw [List.getD_eq_getElem _ _ (by rw [hulen]; omega)]
      exact u32be_lt_256 _ _ (List.getElem_mem _)
    rw [hgdH] at hflip2
    set V := flipByte ((u32be d.length).getD (j / 8 - 4) 0) (j % 8) with hV
    have hVlt : V < 256 := flipByte_lt _ _ hold_lt (by omega)
    have hsetH : H.set (j / 8) V =
        MAGIC_BYTES ++ (u32be d.length).set (j / 8 - 4) V ++ (sha d).take 8 := by
      rw [hH]
      rw [List.set_append_left _ _ (by rw [hMU]; omega)]
      rw [List.set_append_right _ _ (by rw [hM4]; omega), hM4]
    rw [hsetH] at hflip2
    set u2 := (u32be d.length).set (j / 8 - 4) V with hu2
    have hu2len : u2.length = 4 := by rw [hu2, List.length_set, hulen]
    have hu2B : ∀ b ∈ u2, b < 256 := by
      intro b hb
      rcases List.mem_or_eq_of_mem_set hb with hmem | hbeq
      · exact u32be_lt_256 _ b hmem
      · rw [hbeq]; exact hVlt
    have hu2eq : u32be (readU32 u2) = u2 := u32be_readU32 u2 hu2len hu2B
    have hn2lt : readU32 u2 < 4294967296 := readU32_lt u2 hu2len hu2B
    have hne : readU32 u2 ≠ d.length := by
      intro heq
      have h1 : u2 = u32be d.length := by rw [← hu2eq, heq]
      have h2 : u2.getD (j / 8 - 4) 0 = V := by
        rw [hu2, List.getD_eq_getElem?_getD, List.getElem?_set_self (by rw [hulen]; omega)]
        rfl
      have h3 : u2.getD (j / 8 - 4) 0 = (u32be d.length).getD (j / 8 - 4) 0 := by rw [h1]
      apply flipByte_ne _ _ hold_lt (show j % 8 < 8 by omega)
      rw [← hV, ← h2]
      exact h3
    rw [← hu2eq] at hflip2
    have hdec := extract_decomp sha w h (flipLSB E j) (readU32 u2) ((sha d).take 8) T
      hflip2 hc8len hc8B hn2lt
    refine ⟨?_, ?_, ?_⟩
    · rw [hdec]
      split
      · simp
      · split
        · simp
        · simp
    · intro r hr
      rw [hdec] at hr
      split at hr
      · exact absurd hr (by simp)
      · rename_i hTn
        split at hr
        · simp only [Except.ok.injEq] at hr
          have hlen2 : r.data.length = readU32 u2 := by
            rw [← hr]
            exact length_bitsToBytes _ _ (by rw [List.length_take]; omega)
          exact fun hcontra => hne (by rw [← hlen2]; exact hcontra)
        · exact absurd hr (by simp)
    · intro h64
      exact absurd h64 (by omega)
  · -- checksum-field flip
    have hq8 : 8 ≤ j / 8 := by omega
    have hgdH : H.getD (j / 8) 0 = ((sha d).take 8).getD (j / 8 - 8) 0 := by
      rw [hH, getD_append_right_zero _ _ _ (by rw [hMU]; omega), hMU]
    have hold_lt : ((sha d).take 8).getD (j / 8 - 8) 0 < 256 := by
      rw [List.getD_eq_getElem _ _ (by rw [hc8len]; omega)]
      exact hc8B _ (List.getElem_mem _)
    rw [hgdH] at hflip2
    set V := flipByte (((sha d).take 8).getD (j / 8 - 8) 0) (j % 8) with hV
    have hVlt : V < 256 := flipByte_lt _ _ hold_lt (by omega)
    have hsetH : H.set (j / 8) V =
        MAGIC_BYTES ++ u32be d.length ++ ((sha d).take 8).set (j / 8 - 8) V := by
      rw [hH, List.set_append_right _ _ (by rw [hMU]; omega), hMU]
    rw [hsetH] at hflip2
    set c8x := ((sha d).take 8).set (j / 8 - 8) V with hc8x
    have hc8xlen : c8x.length = 8 := by rw [hc8x, List.length_set, hc8len]
    have hc8xB : ∀ b ∈ c8x, b < 256 := by
      intro b hb
      rcases List.mem_or_eq_of_mem_set hb with hmem | hbeq
      · exact hc8B b hmem
      · rw [hbeq]; exact hVlt
    have hc8xne : c8x ≠ (sha d).take 8 := by
      intro heq
      have h2 : c8x.getD (j / 8 - 8) 0 = V := by
        rw [hc8x, List.getD_eq_getElem?_getD, List.getElem?_set_self (by rw [hc8len]; omega)]
        rfl
      have h3 : c8x.getD (j / 8 - 8) 0 = ((sha d).take 8).getD (j / 8 - 8) 0 := by rw [heq]
      apply flipByte_ne _ _ hold_lt (show j % 8 < 8 by omega)
      rw [← hV, ← h2]
      exact h3
    have hdec := extract_decomp sha w h (flipLSB E j) d.length c8x T
      hflip2 hc8xlen hc8xB h32
    have hTge : ¬ T.length < 8 * d.length := by omega
    have hdata : bitsToBytes (T.take (8 * d.length)) = d := by
      rw [hT]
      rw [List.take_left' (length_bytesToBits d)]
      exact bitsToBytes_bytesToBits d hd
    have hcsne : calculateChecksum sha (bitsToBytes (T.take (8 * d.length))) ≠
        hexEncode c8x := by
      rw [hdata]
      intro heq
      have hcs : calculateChecksum sha d = hexEncode ((sha d).take 8) := rfl
      rw [hcs] at heq
      exact hc8xne (hexEncode_injective heq.symm)
    have hres : extractFromPNG sha w h (flipLSB E j) = .error .checksumMismatch := by
      rw [hdec, if_neg hTge, if_neg hcsne]
    refine ⟨?_, ?_, ?_⟩
    · rw [hres]; simp
    · intro r hr
      rw [hres] at hr
      exact absurd hr (by simp)
    · intro h64
      exact hres

set_option maxRecDepth 4000 in
/-- C5 counterexample.  On an 8x8 carrier with a 1-byte payload, flipping
bit 32 of the embedded stream — the most significant bit of the length
field — makes `extractFromPNG` fail with "No hidden data found in image
(Incomplete data)": the spec's `Truncated`, not `NoPayload` or `Corrupt`.
The announced length becomes 2147483649, far beyond the stream. -/
theorem C5_stego_header_flip_counterexample :
    embedInPNG shaZ 8 8 (List.replicate 256 0) [171] =
      .ok (embedBits (bytesToBits (createHeader 1 (calculateChecksum shaZ [171]) ++ [171]))
          (List.replicate 256 0),
        ⟨1, 8, calculateChecksum shaZ [171]⟩) ∧
    extractFromPNG shaZ 8 8
        (flipLSB (embedBits (bytesToBits (createHeader 1 (calculateChecksum shaZ [171]) ++ [171]))
          (List.replicate 256 0)) 32) =
      .error .incompleteData := by
  constructor
  · rfl
  · rfl

theorem C5_stego_header_flip_witness :
    extractFromPNG shaZ 8 8
        (flipLSB (embedBits (bytesToBits (createHeader 1 (calculateChecksum shaZ [171]) ++ [171]))
          (List.replicate 256 0)) 64) =
      .error .checksumMismatch := by
  have h := C5_stego_header_flip shaZ 8 8 (List.replicate 256 0) [171] 64
    (by rw [List.length_replicate]) (by decide)
    (fun x => by simp [shaZ]) (fun x => by simp [shaZ])
    (by decide) (by norm_num) (by norm_num) (by norm_num)
  exact (h _ _ (embedInPNG_ok shaZ 8 8 (List.replicate 256 0) [171] (by decide))).2.2
    (by norm_num)
